import Mathlib

/-!
# go-urlvalues: a shallow embedding of the query-parameter encoder

The development embeds `marshal.go`, `internal/reflect.go` and `internal/url.go`.

* `Values` is Go's `url.Values` (`map[string][]string`), kept as an association
  list; `Values.get` is the map lookup.
* `Value` is what the code sees through `reflect.Value`: a kind, the data of
  that kind, and (through `Value.defined`) the methods of the dynamic type that
  the code asks for (`EncodeValues`, `IsZero`) or that `fmt` asks for.
* A Go map is iterated in an unspecified order: the order of the entry list of
  `Value.map` stands for the order in which the run-time visits the entries.
* The recursive engine `marshalAny` is defined by recursion on a fuel counter,
  because the source recursion need not terminate (see `marshalPtr`).
* The collaborators that live outside the repository (`url.ParseQuery`,
  `query.Values`, `time.Time.Format`, `fmt` on operands that are not plain
  booleans, integers or strings) are the fields of `Env`.
-/

namespace UrlValues

/-! ## Data model -/

/-- Go's `url.Values`, a `map[string][]string`, as an association list. -/
abbrev Values := List (String × List String)

namespace Values

/-- Map lookup `v[key]`; `none` when the key is absent. -/
def get : Values → String → Option (List String)
  | [], _ => none
  | (k, vs) :: rest, key => if k = key then some vs else get rest key

/-- Go's `url.Values.Add`: `v[key] = append(v[key], value)`. -/
def Add : Values → String → String → Values
  | [], key, value => [(key, [value])]
  | (k, vs) :: rest, key, value =>
    if k = key then (k, vs ++ [value]) :: rest else (k, vs) :: Add rest key value

/-- The keys present in the map. -/
def keys (v : Values) : List String := v.map Prod.fst

end Values

/-- Go's `reflect.Kind`; `Int` stands for `Int .. Int64`, `Uint` for
`Uint .. Uint64` and `Uintptr`, `Float` for both float kinds, `Complex` for both
complex kinds (the source never tells the sizes apart). -/
inductive Kind where
  | Invalid | Bool | Int | Uint | Float | Complex | Array | Chan | Func
  | Interface | Map | Ptr | Slice | String | Struct | UnsafePointer
  deriving DecidableEq, Repr

/-- Go `error` values as the code builds them. -/
inductive Error where
  /-- An error value made outside this package. -/
  | ext (msg : String)
  /-- The result of `fmt.Errorf(ctx + ": %w", cause)`. -/
  | wrapped (ctx : String) (cause : Error)
  /-- The result of `fmt.Errorf("expected %s/%s/%s but got %q", String, Map, Struct, got)`. -/
  | unexpectedKind (got : Kind)
  deriving DecidableEq, Repr

/-- How a call ends: it returns, it panics, or the model ran out of fuel. -/
inductive Run (α : Type) where
  | ret (a : α)
  | crash
  | outOfFuel
  deriving DecidableEq, Repr

/-- The methods of a dynamic type that the encoder can observe.
`encodeValues` is the body of `EncodeValues(key, values)` for this receiver, as
the effect on the map behind `values` and the returned error; `isZero` is what
the `IsZero()` method returns; `format` is what `fmt` prints when the type has
its own formatting method. -/
structure Methods where
  encodeValues : Option (String → Values → Values × Option Error) := none
  isZero : Option Bool := none
  format : Option String := none

/-- A `time.Time`: seconds and nanoseconds since the Unix epoch, and the name of
its location. -/
structure Time where
  unixSec : Int
  nsec : Nat
  loc : String
  deriving DecidableEq, Repr

/-- The kinds the source handles only through its default branches. -/
inductive OtherKind where
  | complex | chan | func | unsafePointer
  deriving DecidableEq, Repr

/-- A `reflect.Value`. `invalid` is the zero `reflect.Value`; `float` carries the
IEEE-754 binary64 bit pattern of `v.Float()`; `time` is a struct of type
`time.Time`; `struct` is any other struct; `defined ms v` is a value with the
representation `v` whose dynamic type is not the predeclared one and has the
methods `ms`. -/
inductive Value where
  | invalid
  | bool (b : Bool)
  | int (i : Int)
  | uint (n : Nat)
  | float (bits : Nat)
  | str (s : String)
  | array (elems : List Value)
  | slice (elems : List Value)
  | map (entries : List (Value × Value))
  | time (t : Time)
  | struct (fields : List (String × Value))
  | nilPtr
  | ptr (elem : Value)
  | nilIface
  | iface (dyn : Value)
  | other (k : OtherKind)
  | defined (ms : Methods) (underlying : Value)

/-- The collaborators outside the repository. -/
structure Env where
  /-- Go's `url.ParseQuery`. -/
  ParseQuery : String → Option Values × Option Error
  /-- The record encoder `query.Values` of go-querystring. -/
  queryValues : Value → Option Values × Option Error
  /-- Go's `time.Time.Format`. -/
  Format : Time → String → String
  /-- Go's `fmt.Sprint` on one operand that is not a plain boolean, integer or string. -/
  Sprint : Value → String

/-- The options of the encoder. -/
structure MarshalerOptions where
  ArrayBrackets : Bool := false
  ArrayDelimiter : String := ""
  IntBool : Bool := false
  TimeUnix : Bool := false
  TimeUnixMilli : Bool := false
  TimeUnixNano : Bool := false
  TimeLayout : String := ""
  deriving DecidableEq, Repr

/-! ## The part of `reflect` and of the standard library that the code uses -/

namespace Value

/-- Go's `v.Kind()`. -/
def Kind : Value → UrlValues.Kind
  | invalid => .Invalid
  | bool _ => .Bool
  | int _ => .Int
  | uint _ => .Uint
  | float _ => .Float
  | str _ => .String
  | array _ => .Array
  | slice _ => .Slice
  | map _ => .Map
  | time _ => .Struct
  | struct _ => .Struct
  | nilPtr => .Ptr
  | ptr _ => .Ptr
  | nilIface => .Interface
  | iface _ => .Interface
  | other .complex => .Complex
  | other .chan => .Chan
  | other .func => .Func
  | other .unsafePointer => .UnsafePointer
  | defined _ u => u.Kind

/-- Go's `v.IsValid()`. -/
def IsValid (v : Value) : Bool := v.Kind != .Invalid

/-- Go's `v.IsNil()` on a pointer or an interface. -/
def IsNil : Value → Bool
  | nilPtr => true
  | nilIface => true
  | defined _ u => u.IsNil
  | _ => false

/-- Go's `v.Elem()` on a pointer or an interface (the zero Value for nil). -/
def Elem : Value → Value
  | ptr e => e
  | iface d => d
  | defined _ u => u.Elem
  | _ => invalid

/-- Go's `v.Len()`; the length of a string is its length in bytes. -/
def Len : Value → Nat
  | str s => s.utf8ByteSize
  | array es => es.length
  | slice es => es.length
  | map es => es.length
  | defined _ u => u.Len
  | _ => 0

/-- Go's `v.Bool()`. -/
def toBool : Value → Bool
  | bool b => b
  | defined _ u => u.toBool
  | _ => false

/-- Go's `v.Int()`. -/
def toInt : Value → Int
  | int i => i
  | defined _ u => u.toInt
  | _ => 0

/-- Go's `v.Uint()`. -/
def toUint : Value → Nat
  | uint n => n
  | defined _ u => u.toUint
  | _ => 0

/-- The bit pattern of Go's `v.Float()`. -/
def toFloatBits : Value → Nat
  | float bits => bits
  | defined _ u => u.toFloatBits
  | _ => 0

/-- The entries that Go's `v.MapRange()` yields, in the order it yields them. -/
def MapRange : Value → List (Value × Value)
  | map es => es
  | defined _ u => u.MapRange
  | _ => []

/-- The elements `v.Index(0) .. v.Index(v.Len()-1)` of an array or a slice. -/
def Elems : Value → List Value
  | array es => es
  | slice es => es
  | defined _ u => u.Elems
  | _ => []

/-- Go's `v.Interface()` as an `any`: `none` is the nil interface. A value of
kind Interface yields the value it holds. (On the zero Value Go panics; the
callers that can meet it test `IsValid` first.) -/
def Interface (v : Value) : Option Value :=
  match v.Kind with
  | .Invalid => none
  | .Interface => if v.IsNil then none else some v.Elem
  | _ => some v

/-- The type assertion `x.(Marshaler)` on an `any`. -/
def asMarshaler : Option Value → Option (String → Values → Values × Option Error)
  | some (defined ms _) => ms.encodeValues
  | _ => none

/-- The type assertion `x.(zeroable)` on an `any`, as what `IsZero()` returns;
`time.Time` has the method. -/
def asZeroable : Option Value → Option Bool
  | some (defined ms _) => ms.isZero
  | some (time t) => some (t.unixSec + 62135596800 == 0 && t.nsec == 0)
  | _ => none

/-- The type assertion `x.(time.Time)` on an `any`. -/
def asTime : Option Value → Option Time
  | some (time t) => some t
  | _ => none

/-- The type assertion `x.(string)` on an `any`. -/
def asString : Option Value → Option String
  | some (str s) => some s
  | _ => none

end Value

/-- Two's-complement wrap-around of an `int64` result. -/
def wrapInt64 (x : Int) : Int := (x + 2 ^ 63) % 2 ^ 64 - 2 ^ 63

namespace Time

/-- Go's `t.Unix()`. -/
def Unix (t : Time) : Int := t.unixSec

/-- Go's `t.UnixMilli()`: `t.unixSec()*1e3 + int64(t.nsec())/1e6`. -/
def UnixMilli (t : Time) : Int := wrapInt64 (t.unixSec * 1000 + (t.nsec / 1000000 : Nat))

/-- Go's `t.UnixNano()`: `t.unixSec()*1e9 + int64(t.nsec())`. -/
def UnixNano (t : Time) : Int := wrapInt64 (t.unixSec * 1000000000 + (t.nsec : Nat))

end Time

/-- Go's layout constant `time.RFC3339`. -/
def RFC3339 : String := "2006-01-02T15:04:05Z07:00"

/-- Go's `fmt.Sprint` on one value: plain booleans, integers and strings are
printed as Go prints them, a type with its own formatting method prints what
that method gives, and every other operand is left to `env.Sprint`. -/
def sprintValue (env : Env) : Value → String
  | .bool true => "true"
  | .bool false => "false"
  | .int i => toString i
  | .uint n => toString n
  | .str s => s
  | .defined ms u =>
    match ms.format with
    | some s => s
    | none => sprintValue env u
  | v => env.Sprint v

/-- Go's `fmt.Sprint(x)` and `fmt.Sprintf("%v", x)` on an `any`. -/
def fmtSprint (env : Env) : Option Value → String
  | none => "<nil>"
  | some v => sprintValue env v

/-! ## `internal/reflect.go` -/

/-- `Indirect`: follow pointers until a non-pointer or a nil pointer. -/
def Indirect : Value → Value
  | .ptr e => Indirect e
  | .defined ms u => if u.Kind = .Ptr ∧ u.IsNil = false then Indirect u else .defined ms u
  | v => v

/-- `IsZero`. -/
def IsZero (v : Value) : Bool :=
  match v.Kind with
  | .Array | .Map | .Slice | .String => v.Len == 0
  | .Bool => !v.toBool
  | .Int => v.toInt == 0
  | .Uint => v.toUint == 0
  | .Float => v.toFloatBits % 2 ^ 63 == 0
  | .Interface | .Ptr => v.IsNil
  | _ =>
    if !v.IsValid then true
    else
      match Value.asZeroable v.Interface with
      | some z => z
      | none => false

/-- `ValueString`. -/
def ValueString (env : Env) (v : Value) : String :=
  if IsZero v then "" else fmtSprint env v.Interface

/-- The map assignment `out[k] = mv` on the string-keyed map that
`StringValueMap` builds. -/
def setEntry : List (String × Value) → String → Value → List (String × Value)
  | [], k, mv => [(k, mv)]
  | (k0, v0) :: rest, k, mv =>
    if k0 = k then (k0, mv) :: rest else (k0, v0) :: setEntry rest k mv

/-- `StringValueMap`: the entries of the map it returns, in the order in which a
`range` visits them. -/
def StringValueMap (env : Env) (v : Value) : List (String × Value) :=
  v.MapRange.foldl
    (fun out kv =>
      match kv.2.Interface with
      | none => out
      | some mv => setEntry out (ValueString env kv.1) mv)
    []

/-- `SliceValues`. -/
def SliceValues (v : Value) : List Value := v.Elems

/-! ## `internal/url.go` -/

/-- `MergeURLValues`; `src` lists the entries of the source map in the order in
which the `range` visits them. -/
def MergeURLValues (dst : Values) (src : Values) (scope : String) : Values :=
  src.foldl
    (fun d kv =>
      let k := if scope ≠ "" then scope ++ "[" ++ kv.1 ++ "]" else kv.1
      kv.2.foldl (fun d s => d.Add k s) d)
    dst

/-! ## `marshal.go` -/

/-- What one call of the engine yields: the state of the shared output map after
the call, and the returned error. -/
abbrev Outcome := Run (Values × Option Error)

/-- The `if err := ...; err != nil { return fmt.Errorf(ctx + ": %w", err) }`
of `marshalAny`. -/
def wrapErr (ctx : String) : Outcome → Outcome
  | .ret (out, some err) => .ret (out, some (.wrapped ctx err))
  | r => r

/-- A `for` loop over `xs` whose body calls `f` on the shared map and returns
at the first error. -/
def forEach {α : Type} (f : Values → α → Outcome) : List α → Values → Outcome
  | [], out => .ret (out, none)
  | a :: rest, out =>
    match f out a with
    | .ret (out1, none) => forEach f rest out1
    | r => r

namespace MarshalerOptions

/-- `encodeBool`. -/
def encodeBool (m : MarshalerOptions) (env : Env) (val : Value) : String :=
  if !m.IntBool then fmtSprint env val.Interface
  else if val.toBool then "1"
  else "0"

/-- `encodeTime`, on the `time.Time` that `val.Interface().(time.Time)` gives. -/
def encodeTime (m : MarshalerOptions) (env : Env) (t : Time) : String :=
  if m.TimeUnix then toString t.Unix
  else if m.TimeUnixMilli then toString t.UnixMilli
  else if m.TimeUnixNano then toString t.UnixNano
  else
    let layout := if m.TimeLayout ≠ "" then m.TimeLayout else RFC3339
    env.Format t layout

/-- `encodeAsString`. -/
def encodeAsString (env : Env) (val : Value) : String := ValueString env val

/-- `marshalBasicTypes`. -/
def marshalBasicTypes (m : MarshalerOptions) (env : Env) (urlValues : Values) (val : Value)
    (scope : String) : Outcome :=
  if scope = "" then .ret (urlValues, none)
  else
    let s :=
      match val.Kind with
      | .Bool => m.encodeBool env val
      | _ => encodeAsString env val
    .ret (urlValues.Add scope s, none)

/-- `marshalStruct`. -/
def marshalStruct (m : MarshalerOptions) (env : Env) (urlValues : Values) (val : Value)
    (scope : String) : Outcome :=
  match Value.asTime val.Interface with
  | some t =>
    if scope ≠ "" then .ret (urlValues.Add scope (m.encodeTime env t), none)
    else .ret (urlValues, none)
  | none =>
    match env.queryValues val with
    | (_, some err) => .ret (urlValues, some err)
    | (structValues, none) => .ret (MergeURLValues urlValues (structValues.getD []) scope, none)

/-- `marshalMap`; `self` is the recursive call `m.marshalAny`. -/
def marshalMap (env : Env) (self : Values → Value → String → Outcome) (urlValues : Values)
    (val : Value) (scope : String) : Outcome :=
  forEach
    (fun out kv =>
      let k := if scope ≠ "" then scope ++ "[" ++ kv.1 ++ "]" else kv.1
      self out kv.2 k)
    (StringValueMap env val) urlValues

/-- `marshalSlice`; `self` is the recursive call `m.marshalAny`. -/
def marshalSlice (m : MarshalerOptions) (self : Values → Value → String → Outcome)
    (urlValues : Values) (val : Value) (scope : String) : Outcome :=
  let scope := if m.ArrayBrackets then scope ++ "[]" else scope
  if m.ArrayDelimiter = "" then
    forEach (fun out v => self out v scope) (SliceValues val) urlValues
  else
    match forEach (fun out v => self out v scope) (SliceValues val) [] with
    | .ret (tmp, none) =>
      match tmp.get scope with
      | some vs => .ret (urlValues.Add scope (m.ArrayDelimiter.intercalate vs), none)
      | none => .ret (urlValues, none)
    | .ret (_, some err) => .ret (urlValues, some err)
    | r => r

/-- `marshalPtr`; `self` is the recursive call `m.marshalAny`. -/
def marshalPtr (self : Values → Value → String → Outcome) (urlValues : Values)
    (val : Value) (scope : String) : Outcome :=
  let val := Indirect val
  self urlValues val scope

/-- `marshalAny`, by recursion on the fuel: one unit per nested call. The first
line is the panic of `val.Interface()` on the zero Value. -/
def marshalAny (m : MarshalerOptions) (env : Env) :
    Nat → Values → Value → String → Outcome
  | 0, _, _, _ => .outOfFuel
  | fuel + 1, urlValues, val, scope =>
    if !val.IsValid then .crash
    else
      match Value.asMarshaler val.Interface with
      | some encodeValues =>
        match encodeValues scope urlValues with
        | (out, some err) => .ret (out, some (.wrapped "EncodeValues" err))
        | (out, none) => .ret (out, none)
      | none =>
        match val.Kind with
        | .Map =>
          wrapErr "marshal map" (marshalMap env (fun o v k => marshalAny m env fuel o v k) urlValues val scope)
        | .Array | .Slice =>
          wrapErr "marshal slice" (m.marshalSlice (fun o v k => marshalAny m env fuel o v k) urlValues val scope)
        | .Struct =>
          wrapErr "marshal struct" (m.marshalStruct env urlValues val scope)
        | .Ptr =>
          wrapErr "marshal pointer" (marshalPtr (fun o v k => marshalAny m env fuel o v k) urlValues val scope)
        | _ =>
          wrapErr "marshal other" (m.marshalBasicTypes env urlValues val scope)

/-- `MarshalerOptions.Marshal`; `v` is the `any` argument (`none` is nil). The
result is the returned `url.Values` (`none` is the nil map) and the error. -/
def Marshal (m : MarshalerOptions) (env : Env) (fuel : Nat) (v : Option Value) :
    Run (Option Values × Option Error) :=
  let values : Values := []
  match v with
  | none => .ret (some values, none)
  | some x =>
    let val := Indirect x
    if IsZero val then .ret (none, none)
    else
      match val.Kind with
      | .String =>
        match Value.asString val.Interface with
        | some s => .ret (env.ParseQuery s)
        | none => .crash
      | .Map | .Struct =>
        match m.marshalAny env fuel values val "" with
        | .ret (_, some err) => .ret (none, some err)
        | .ret (out, none) => .ret (some out, none)
        | .crash => .crash
        | .outOfFuel => .outOfFuel
      | k => .ret (none, some (.unexpectedKind k))

end MarshalerOptions

/-- The package-level `Marshal`: the default options. -/
def Marshal (env : Env) (fuel : Nat) (v : Option Value) : Run (Option Values × Option Error) :=
  MarshalerOptions.Marshal {} env fuel v

/-! ## Auxiliary definitions for the statements -/

/-- The value `v` behind `n` non-nil pointers. -/
def ptrTo : Nat → Value → Value
  | 0, v => v
  | n + 1, v => .ptr (ptrTo n v)

/-- A sample environment for concrete evaluations: the record encoder returns
the fields `int=100` and `slice=1,2`, the parser returns one pair. -/
def sampleEnv : Env where
  ParseQuery := fun s => (some [("q", [s])], none)
  queryValues := fun _ => (some [("int", ["100"]), ("slice", ["1", "2"])], none)
  Format := fun t layout => layout ++ "@" ++ toString t.unixSec
  Sprint := fun _ => "?"

/-- A value as it sits in a map slot: directly (a map with a concrete element
type) or behind the interface (a `map[K]any`). -/
def slot (boxed : Bool) (v : Value) : Value := if boxed then .iface v else v

/-- What a caller can tell from one call of the engine: the state of the output
map and whether an error came back (not its text). -/
def verdict : Outcome → Run (Values × Bool)
  | .ret (out, err) => .ret (out, err.isSome)
  | .crash => .crash
  | .outOfFuel => .outOfFuel

/-- The map after `Add key v` for each `v` of `vs`, in order. -/
def addAll (out : Values) (key : String) (vs : List String) : Values :=
  vs.foldl (fun o v => o.Add key v) out

/-- A primitive for the engine: a valid value that is not custom-encodable and
whose kind is none of map, array, slice, struct and pointer, so that
`marshalAny` hands it to `marshalBasicTypes`. -/
def isBasic (v : Value) : Bool :=
  v.IsValid && (Value.asMarshaler v.Interface).isNone &&
    (match v.Kind with
     | .Map | .Array | .Slice | .Struct | .Ptr => false
     | _ => true)

/-- The string that `marshalBasicTypes` adds for `val` (its `switch`). -/
def renderBasic (m : MarshalerOptions) (env : Env) (val : Value) : String :=
  match val.Kind with
  | .Bool => m.encodeBool env val
  | _ => MarshalerOptions.encodeAsString env val

/-- The scope under which `marshalSlice` encodes the elements. -/
def elementScope (m : MarshalerOptions) (scope : String) : String :=
  if m.ArrayBrackets then scope ++ "[]" else scope

/-! ## Plain data and its scope paths -/

/-- Plain data: a leaf (a primitive or a timestamp), a mapping with string keys
(`boxed` tells whether it is a `map[string]any`), or a sequence (`fixed` tells
an array from a slice). -/
inductive Tree where
  | leaf (v : Value)
  | mapping (boxed : Bool) (entries : List (String × Tree))
  | sequence (fixed : Bool) (elems : List Tree)

mutual
/-- The `reflect.Value` of plain data. -/
def Tree.toValue : Tree → Value
  | .leaf v => v
  | .mapping boxed es => .map (entriesToValue boxed es)
  | .sequence fixed es => if fixed then .array (elemsToValue es) else .slice (elemsToValue es)
/-- The entries of the map of a mapping. -/
def entriesToValue (boxed : Bool) : List (String × Tree) → List (Value × Value)
  | [] => []
  | (k, t) :: rest => (.str k, slot boxed t.toValue) :: entriesToValue boxed rest
/-- The elements of the array or slice of a sequence. -/
def elemsToValue : List Tree → List Value
  | [] => []
  | t :: rest => t.toValue :: elemsToValue rest
end

/-- A leaf for the descent: a primitive or a `time.Time`. -/
def isLeaf : Value → Bool
  | .time _ => true
  | v => isBasic v

/-- The rendering of a leaf: the timestamp rule for a `time.Time`, the rule of
`marshalBasicTypes` for a primitive. -/
def leafText (m : MarshalerOptions) (env : Env) : Value → String
  | .time t => m.encodeTime env t
  | v => renderBasic m env v

mutual
/-- Well-formed plain data: the leaves are leaves, the keys of a mapping are
distinct, and a map with a concrete element type holds no interface value. -/
def Tree.wf : Tree → Bool
  | .leaf v => isLeaf v
  | .mapping boxed es => decide ((es.map Prod.fst).Nodup) && wfEntries boxed es
  | .sequence _ es => wfElems es
/-- Well-formedness of the entries of a mapping. -/
def wfEntries (boxed : Bool) : List (String × Tree) → Bool
  | [] => true
  | (_, t) :: rest => t.wf && (boxed || t.toValue.Kind != .Interface) && wfEntries boxed rest
/-- Well-formedness of the elements of a sequence. -/
def wfElems : List Tree → Bool
  | [] => true
  | t :: rest => t.wf && wfElems rest
end

mutual
/-- The nesting depth of plain data: the fuel the engine needs on it. -/
def Tree.depth : Tree → Nat
  | .leaf _ => 1
  | .mapping _ es => depthEntries es + 1
  | .sequence _ es => depthElems es + 1
/-- The largest depth among the entries of a mapping. -/
def depthEntries : List (String × Tree) → Nat
  | [] => 0
  | (_, t) :: rest => max t.depth (depthEntries rest)
/-- The largest depth among the elements of a sequence. -/
def depthElems : List Tree → Nat
  | [] => 0
  | t :: rest => max t.depth (depthElems rest)
end

mutual
/-- The leaves reached by depth-first descent from scope `s`, each with its
composed scope: a mapping key `k` under scope `s` gives `k` when `s` is empty
and `s[k]` otherwise; a sequence under `s` gives `s[]` in bracket mode and `s`
otherwise. -/
def Tree.leaves (brackets : Bool) : String → Tree → List (String × Value)
  | s, .leaf v => [(s, v)]
  | s, .mapping _ es => leavesEntries brackets s es
  | s, .sequence _ es => leavesElems brackets (if brackets then s ++ "[]" else s) es
/-- The leaves below the entries of a mapping at scope `s`. -/
def leavesEntries (brackets : Bool) : String → List (String × Tree) → List (String × Value)
  | _, [] => []
  | s, (k, t) :: rest =>
    t.leaves brackets (if s = "" then k else s ++ "[" ++ k ++ "]") ++ leavesEntries brackets s rest
/-- The leaves below the elements of a sequence at element scope `s`. -/
def leavesElems (brackets : Bool) : String → List Tree → List (String × Value)
  | _, [] => []
  | s, t :: rest => t.leaves brackets s ++ leavesElems brackets s rest
end

/-- The output after the leaves are emitted in order: a leaf with a non-empty
scope is added under it, a leaf with the empty scope is dropped. -/
def emitLeaves (m : MarshalerOptions) (env : Env) (out : Values) (ls : List (String × Value)) :
    Values :=
  ls.foldl (fun o p => if p.1 = "" then o else o.Add p.1 (leafText m env p.2)) out

/-- The mapping `{"int": 1, "map": {"slice": ["100","200"], "int": 1}}`. -/
def exampleTree : Tree :=
  .mapping true
    [("int", .leaf (.int 1)),
     ("map", .mapping true
        [("slice", .sequence false [.leaf (.str "100"), .leaf (.str "200")]),
         ("int", .leaf (.int 1))])]

/-- The effective key of `MergeURLValues`: `k` at the empty scope, `scope[k]`
otherwise. -/
def effKey (scope k : String) : String :=
  if scope ≠ "" then scope ++ "[" ++ k ++ "]" else k

/-- The definition of zero in the words of the claim about `IsZero`: length 0
for an array, slice, mapping or string; false for a boolean; 0 for a signed or
unsigned integer; nil for a pointer or interface; and for any other shape,
invalid or reporting its own zero-ness as true. -/
def zeroAsClaimed (v : Value) : Bool :=
  match v.Kind with
  | .Array | .Slice | .Map | .String => decide (v.Len = 0)
  | .Bool => decide (v.toBool = false)
  | .Int => decide (v.toInt = 0)
  | .Uint => decide (v.toUint = 0)
  | .Ptr | .Interface => v.IsNil
  | _ => !v.IsValid || Value.asZeroable v.Interface == some true

/-- The same definition with the floating-point case of the specification:
a floating-point number is zero iff it is 0 (the bit pattern of +0 or -0). -/
def zeroReference (v : Value) : Bool :=
  match v.Kind with
  | .Array | .Slice | .Map | .String => decide (v.Len = 0)
  | .Bool => decide (v.toBool = false)
  | .Int => decide (v.toInt = 0)
  | .Uint => decide (v.toUint = 0)
  | .Float => decide (v.toFloatBits = 0 ∨ v.toFloatBits = 2 ^ 63)
  | .Ptr | .Interface => v.IsNil
  | _ => !v.IsValid || Value.asZeroable v.Interface == some true

/-- `ReachesFailure m env n out val scope`: with fuel `n`, the engine's run on
`val` at `scope`, started on the output `out`, reaches a value whose encoding
fails: `val` is custom-encodable and its `EncodeValues` returns an error, or
`val` is a record and the record encoder returns an error, or `val` is a
mapping, a sequence (in either array mode) or a pointer, and the run reaches
such a value inside it after the entries or elements visited before it were
encoded without error. -/
inductive ReachesFailure (m : MarshalerOptions) (env : Env) :
    Nat → Values → Value → String → Prop where
  | custom (n : Nat) (out : Values) (val : Value) (scope : String)
      (enc : String → Values → Values × Option Error) (err : Error) :
      Value.asMarshaler val.Interface = some enc →
      (enc scope out).2 = some err →
      ReachesFailure m env (n + 1) out val scope
  | record (n : Nat) (out : Values) (val : Value) (scope : String)
      (sv : Option Values) (err : Error) :
      val.Kind = .Struct →
      Value.asMarshaler val.Interface = none →
      Value.asTime val.Interface = none →
      env.queryValues val = (sv, some err) →
      ReachesFailure m env (n + 1) out val scope
  | inMapping (n : Nat) (out : Values) (val : Value) (scope : String)
      (pre post : List (String × Value)) (k : String) (x : Value) (out1 : Values) :
      val.Kind = .Map →
      Value.asMarshaler val.Interface = none →
      StringValueMap env val = pre ++ (k, x) :: post →
      forEach (fun o kv => m.marshalAny env n o kv.2
          (if scope ≠ "" then scope ++ "[" ++ kv.1 ++ "]" else kv.1)) pre out
        = .ret (out1, none) →
      ReachesFailure m env n out1 x (if scope ≠ "" then scope ++ "[" ++ k ++ "]" else k) →
      ReachesFailure m env (n + 1) out val scope
  | inSequence (n : Nat) (out : Values) (val : Value) (scope : String)
      (pre post : List Value) (x : Value) (out1 : Values) :
      (val.Kind = .Array ∨ val.Kind = .Slice) →
      Value.asMarshaler val.Interface = none →
      m.ArrayDelimiter = "" →
      SliceValues val = pre ++ x :: post →
      forEach (fun o v => m.marshalAny env n o v (elementScope m scope)) pre out
        = .ret (out1, none) →
      ReachesFailure m env n out1 x (elementScope m scope) →
      ReachesFailure m env (n + 1) out val scope
  | inJoinedSequence (n : Nat) (out : Values) (val : Value) (scope : String)
      (pre post : List Value) (x : Value) (tmp1 : Values) :
      (val.Kind = .Array ∨ val.Kind = .Slice) →
      Value.asMarshaler val.Interface = none →
      m.ArrayDelimiter ≠ "" →
      SliceValues val = pre ++ x :: post →
      forEach (fun o v => m.marshalAny env n o v (elementScope m scope)) pre []
        = .ret (tmp1, none) →
      ReachesFailure m env n tmp1 x (elementScope m scope) →
      ReachesFailure m env (n + 1) out val scope
  | behindPointer (n : Nat) (out : Values) (val : Value) (scope : String) :
      val.Kind = .Ptr →
      Value.asMarshaler val.Interface = none →
      ReachesFailure m env n out (Indirect val) scope →
      ReachesFailure m env (n + 1) out val scope

/-- A custom-encodable integer whose `EncodeValues` fails. -/
def failingValue : Value :=
  .defined { encodeValues := some (fun _ o => (o, some (.ext "invalid value: -10"))) } (.int (-10))

/-! ## Iteration orders of the mappings of plain data -/

mutual
/-- The same data with the entries of every mapping (at every depth) visited in
the order that `σ` gives to its entry list. -/
def Tree.reorder (σ : List (String × Tree) → List (String × Tree)) : Tree → Tree
  | .leaf v => .leaf v
  | .mapping boxed es => .mapping boxed (σ (reorderEntries σ es))
  | .sequence fixed es => .sequence fixed (reorderElems σ es)
/-- The entries of a mapping with their values reordered inside. -/
def reorderEntries (σ : List (String × Tree) → List (String × Tree)) :
    List (String × Tree) → List (String × Tree)
  | [] => []
  | (k, t) :: rest => (k, t.reorder σ) :: reorderEntries σ rest
/-- The elements of a sequence, each reordered inside. -/
def reorderElems (σ : List (String × Tree) → List (String × Tree)) : List Tree → List Tree
  | [] => []
  | t :: rest => t.reorder σ :: reorderElems σ rest
end

/-- The composed scope paths below one entry of a mapping at scope `s`. -/
def entryPaths (brackets : Bool) (s : String) (p : String × Tree) : List String :=
  (p.2.leaves brackets (if s = "" then p.1 else s ++ "[" ++ p.1 ++ "]")).map Prod.fst

/-- Two entries of a mapping compose to no common key. -/
def disjointEntries (brackets : Bool) (s : String) (p q : String × Tree) : Prop :=
  ∀ x ∈ entryPaths brackets s p, x ∉ entryPaths brackets s q

mutual
/-- No two different entries of a mapping, at any depth, compose to a common
key. -/
def Tree.separated (brackets : Bool) : String → Tree → Prop
  | _, .leaf _ => True
  | s, .mapping _ es =>
    es.Pairwise (disjointEntries brackets s) ∧ separatedEntries brackets s es
  | s, .sequence _ es => separatedElems brackets (if brackets then s ++ "[]" else s) es
/-- The values of the entries of a mapping are separated. -/
def separatedEntries (brackets : Bool) : String → List (String × Tree) → Prop
  | _, [] => True
  | s, (k, t) :: rest =>
    t.separated brackets (if s = "" then k else s ++ "[" ++ k ++ "]") ∧
      separatedEntries brackets s rest
/-- The elements of a sequence are separated. -/
def separatedElems (brackets : Bool) : String → List Tree → Prop
  | _, [] => True
  | s, t :: rest => t.separated brackets s ∧ separatedElems brackets s rest
end

/-- The mapping `{"a": {"b": 1}, "a[b]": 2}`. -/
def collidingTree : Tree :=
  .mapping true [("a", .mapping true [("b", .leaf (.int 1))]), ("a[b]", .leaf (.int 2))]

/-! ## Plain data with pointers and interface-typed sequences -/

/-- Plain data as the engine meets it: a leaf (a primitive or a timestamp), a
mapping (each entry has its key as `MapRange` yields it; `boxed` tells a map of
interface values such as a `map[string]any` from a map with a concrete element
type), a sequence (`fixed` tells an array from a slice, `boxed` tells a sequence
of interface values such as a `[]any` from a sequence with a concrete element
type), or a non-nil pointer. -/
inductive Plain where
  | leaf (v : Value)
  | mapping (boxed : Bool) (entries : List (Value × Plain))
  | sequence (fixed : Bool) (boxed : Bool) (elems : List Plain)
  | pointer (target : Plain)

mutual
/-- The `reflect.Value` of plain data. -/
def Plain.toValue : Plain → Value
  | .leaf v => v
  | .mapping boxed es => .map (Plain.entriesToValue boxed es)
  | .sequence fixed boxed es =>
    if fixed then .array (Plain.elemsToValue boxed es) else .slice (Plain.elemsToValue boxed es)
  | .pointer t => .ptr t.toValue
/-- The entries of the map of a mapping. -/
def Plain.entriesToValue (boxed : Bool) : List (Value × Plain) → List (Value × Value)
  | [] => []
  | (k, t) :: rest => (k, slot boxed t.toValue) :: Plain.entriesToValue boxed rest
/-- The elements of the array or slice of a sequence. -/
def Plain.elemsToValue (boxed : Bool) : List Plain → List Value
  | [] => []
  | t :: rest => slot boxed t.toValue :: Plain.elemsToValue boxed rest
end

mutual
/-- Well-formed plain data: a leaf is a primitive or a `time.Time` and is not of
interface kind (whether a value sits behind an interface is told by `boxed`),
and the keys of one mapping have distinct renderings (`ValueString`). -/
def Plain.wf (env : Env) : Plain → Bool
  | .leaf v => isLeaf v && v.Kind != .Interface
  | .mapping _ es =>
    decide ((es.map (fun p => ValueString env p.1)).Nodup) && Plain.wfEntries env es
  | .sequence _ _ es => Plain.wfElems env es
  | .pointer t => t.wf env
/-- Well-formedness of the entries of a mapping. -/
def Plain.wfEntries (env : Env) : List (Value × Plain) → Bool
  | [] => true
  | (_, t) :: rest => t.wf env && Plain.wfEntries env rest
/-- Well-formedness of the elements of a sequence. -/
def Plain.wfElems (env : Env) : List Plain → Bool
  | [] => true
  | t :: rest => t.wf env && Plain.wfElems env rest
end

mutual
/-- The nesting depth of plain data: fuel that suffices for the engine on it. -/
def Plain.depth : Plain → Nat
  | .leaf _ => 1
  | .mapping _ es => Plain.depthEntries es + 1
  | .sequence _ _ es => Plain.depthElems es + 1
  | .pointer t => t.depth + 1
/-- The largest depth among the entries of a mapping. -/
def Plain.depthEntries : List (Value × Plain) → Nat
  | [] => 0
  | (_, t) :: rest => max t.depth (Plain.depthEntries rest)
/-- The largest depth among the elements of a sequence. -/
def Plain.depthElems : List Plain → Nat
  | [] => 0
  | t :: rest => max t.depth (Plain.depthElems rest)
end

mutual
/-- The leaves reached by plain depth-first descent from scope `s`, each with
its composed scope: a mapping key rendered as `k` under `s` gives `k` when `s`
is empty and `s[k]` otherwise; a sequence under `s` gives `s[]` in bracket mode
and `s` otherwise; a pointer is followed at the same scope. -/
def Plain.reach (env : Env) (brackets : Bool) : String → Plain → List (String × Value)
  | s, .leaf v => [(s, v)]
  | s, .mapping _ es => Plain.reachEntries env brackets s es
  | s, .sequence _ _ es => Plain.reachElems env brackets (if brackets then s ++ "[]" else s) es
  | s, .pointer t => t.reach env brackets s
/-- The leaves below the entries of a mapping at scope `s`. -/
def Plain.reachEntries (env : Env) (brackets : Bool) :
    String → List (Value × Plain) → List (String × Value)
  | _, [] => []
  | s, (k, t) :: rest =>
    t.reach env brackets
        (if s = "" then ValueString env k else s ++ "[" ++ ValueString env k ++ "]")
      ++ Plain.reachEntries env brackets s rest
/-- The leaves below the elements of a sequence at element scope `s`. -/
def Plain.reachElems (env : Env) (brackets : Bool) : String → List Plain → List (String × Value)
  | _, [] => []
  | s, t :: rest => t.reach env brackets s ++ Plain.reachElems env brackets s rest
end

/-- The elements of a sequence of interface values as leaves at the element
scope `s`: each is rendered as `fmt.Sprint` prints the value it holds. -/
def printed (env : Env) (s : String) (vs : List Value) : List (String × String) :=
  if s = "" then [] else vs.map (fun v => (s, sprintValue env v))

/-- The renderings among `ps` under the key `k`, in order. -/
def textsUnder (ps : List (String × String)) (k : String) : List String :=
  (ps.filter (fun p => p.1 = k)).map Prod.snd

/-- What a sequence with element scope `s` contributes, given what its elements
contribute (`inner`): all of it when `ArrayDelimiter` is empty; otherwise the
one key `s` holding the renderings that `inner` has under exactly `s`, joined
with the delimiter, and nothing when `inner` has none under `s`. -/
def joinAt (m : MarshalerOptions) (s : String) (inner : List (String × String)) :
    List (String × String) :=
  if m.ArrayDelimiter = "" then inner
  else if textsUnder inner s = [] then []
  else [(s, m.ArrayDelimiter.intercalate (textsUnder inner s))]

mutual
/-- The leaves of plain data for the encoder, in visiting order, each with its
composed scope and its rendering. A leaf whose composed scope is empty is
dropped; a pointer is followed; the elements of a sequence of interface values
are leaves themselves, whatever they hold; in delimiter mode a sequence is one
leaf (see `joinAt`). -/
def Plain.leaves (m : MarshalerOptions) (env : Env) : String → Plain → List (String × String)
  | s, .leaf v => if s = "" then [] else [(s, leafText m env v)]
  | s, .mapping _ es => Plain.leavesEntries m env s es
  | s, .sequence _ boxed es =>
    joinAt m (elementScope m s)
      (if boxed then printed env (elementScope m s) (Plain.elemsToValue false es)
       else Plain.leavesElems m env (elementScope m s) es)
  | s, .pointer t => t.leaves m env s
/-- The leaves below the entries of a mapping at scope `s`. -/
def Plain.leavesEntries (m : MarshalerOptions) (env : Env) :
    String → List (Value × Plain) → List (String × String)
  | _, [] => []
  | s, (k, t) :: rest =>
    t.leaves m env (if s = "" then ValueString env k else s ++ "[" ++ ValueString env k ++ "]")
      ++ Plain.leavesEntries m env s rest
/-- The leaves below the elements of a sequence at element scope `s`. -/
def Plain.leavesElems (m : MarshalerOptions) (env : Env) :
    String → List Plain → List (String × String)
  | _, [] => []
  | s, t :: rest => t.leaves m env s ++ Plain.leavesElems m env s rest
end

mutual
/-- Plain data in which no sequence holds interface values. -/
def Plain.typed : Plain → Bool
  | .leaf _ => true
  | .mapping _ es => Plain.typedEntries es
  | .sequence _ boxed es => !boxed && Plain.typedElems es
  | .pointer t => t.typed
/-- No sequence holds interface values below the entries of a mapping. -/
def Plain.typedEntries : List (Value × Plain) → Bool
  | [] => true
  | (_, t) :: rest => t.typed && Plain.typedEntries rest
/-- No sequence holds interface values below the elements of a sequence. -/
def Plain.typedElems : List Plain → Bool
  | [] => true
  | t :: rest => t.typed && Plain.typedElems rest
end

/-- The output after `Add key value` for each pair, in order. -/
def addPairs (out : Values) (ps : List (String × String)) : Values :=
  ps.foldl (fun o p => o.Add p.1 p.2) out

/-- The mapping `{"int": 1, "map": {"slice": ["100","200"], "int": 1}}`. -/
def examplePlain : Plain :=
  .mapping true
    [(.str "int", .leaf (.int 1)),
     (.str "map", .mapping true
        [(.str "slice", .sequence false false [.leaf (.str "100"), .leaf (.str "200")]),
         (.str "int", .leaf (.int 1))])]

/-! ## Basic facts -/

theorem utf8ByteSize_eq_zero_iff (s : String) : s.utf8ByteSize = 0 ↔ s = "" := by
  constructor
  · intro h
    rcases s with ⟨cs⟩
    cases cs with
    | nil => rfl
    | cons c cs =>
      have hc : 0 < c.utf8Size := Char.utf8Size_pos c
      simp only [String.utf8ByteSize, String.utf8ByteSize.go] at h
      omega
  · intro h
    subst h
    rfl

theorem IsZero_str (s : String) : IsZero (.str s) = decide (s = "") := by
  by_cases hs : s = ""
  · subst hs
    rfl
  · have h0 : s.utf8ByteSize ≠ 0 := fun h => hs ((utf8ByteSize_eq_zero_iff s).mp h)
    simp [IsZero, Value.Kind, Value.Len, hs, h0]

theorem Indirect_ptrTo (n : Nat) (v : Value) : Indirect (ptrTo n v) = Indirect v := by
  induction n with
  | zero => rfl
  | succ n ih => simpa [ptrTo, Indirect] using ih

/-! ## The entry point -/

/-- C1: a non-nil top-level value whose dereferenced form is not zero and whose
kind is neither string, map nor struct makes `Marshal` return the nil
collection and a (non-nil) type-mismatch error, under every configuration. -/
theorem Marshal_rejects_other_kinds (m : MarshalerOptions) (env : Env) (fuel : Nat) (v : Value)
    (hz : IsZero (Indirect v) = false)
    (hk : (Indirect v).Kind ≠ .String ∧ (Indirect v).Kind ≠ .Map ∧ (Indirect v).Kind ≠ .Struct) :
    m.Marshal env fuel (some v) = .ret (none, some (.unexpectedKind (Indirect v).Kind)) := by
  obtain ⟨h1, h2, h3⟩ := hk
  simp only [MarshalerOptions.Marshal, hz]
  cases hK : (Indirect v).Kind <;> simp_all

theorem Marshal_rejects_other_kinds_witness :
    IsZero (Indirect (.slice [.int 1])) = false ∧
    MarshalerOptions.Marshal { IntBool := true } sampleEnv 0 (some (.slice [.int 1]))
      = .ret (none, some (.unexpectedKind .Slice)) :=
  ⟨by decide,
   Marshal_rejects_other_kinds { IntBool := true } sampleEnv 0 (.slice [.int 1]) (by decide)
     (by decide)⟩

/-- C2: `Marshal` of the nil `any` returns the empty non-nil collection and no
error; `Marshal` of any value whose dereferenced form is zero per `IsZero`
returns the nil collection and no error, whatever its kind and under every
configuration. -/
theorem Marshal_nil_and_zero (m : MarshalerOptions) (env : Env) (fuel : Nat) :
    m.Marshal env fuel none = .ret (some [], none) ∧
    ∀ v : Value, IsZero (Indirect v) = true → m.Marshal env fuel (some v) = .ret (none, none) := by
  refine ⟨rfl, ?_⟩
  intro v hz
  simp [MarshalerOptions.Marshal, hz]

theorem Marshal_nil_and_zero_witness :
    IsZero (Indirect (.ptr (.int 0))) = true ∧
    MarshalerOptions.Marshal {} sampleEnv 0 (some (.ptr (.int 0))) = .ret (none, none) :=
  ⟨by decide, (Marshal_nil_and_zero {} sampleEnv 0).2 (.ptr (.int 0)) (by decide)⟩

theorem Indirect_ptrTo_defined_str (n : Nat) (ms : Methods) (s : String) :
    Indirect (ptrTo n (.defined ms (.str s))) = .defined ms (.str s) := by
  rw [Indirect_ptrTo]
  simp [Indirect, Value.Kind]

/-- C3 fails on the code for a string of a defined type. For a non-empty
string `s` of the predeclared type `string`, given directly or behind `n`
non-nil pointers, `Marshal` returns exactly what the query-string parser returns
for `s` (collection and error), under every configuration and with no fuel at
all, so the engine is not entered. The same string as a value of a defined
string type (`type Q string`, with any methods) is not zero and has kind String
as well, so `Marshal` takes the same branch, and there the unchecked assertion
`val.Interface().(string)` panics. -/
theorem Marshal_string_kind (m : MarshalerOptions) (env : Env) (fuel : Nat)
    (s : String) (n : Nat) (ms : Methods) (hs : s ≠ "") :
    (m.Marshal env fuel (some (ptrTo n (.str s))) = .ret (env.ParseQuery s) ∧
      m.Marshal env 0 (some (ptrTo n (.str s))) = .ret (env.ParseQuery s)) ∧
    ((Indirect (ptrTo n (.defined ms (.str s)))).Kind = .String ∧
      IsZero (Indirect (ptrTo n (.defined ms (.str s)))) = false ∧
      m.Marshal env fuel (some (ptrTo n (.defined ms (.str s)))) = .crash) := by
  have hz : IsZero (Value.str s) = false := by simp [IsZero_str, hs]
  have hi : Indirect (ptrTo n (.str s)) = .str s := by rw [Indirect_ptrTo]; rfl
  have hzd : IsZero (Value.defined ms (.str s)) = false := by
    have h := hz
    simp only [IsZero, Value.Kind, Value.Len] at h ⊢
    exact h
  refine ⟨⟨?_, ?_⟩, ?_, ?_, ?_⟩
  · simp [MarshalerOptions.Marshal, hi, hz, Value.Kind, Value.Interface, Value.asString]
  · simp [MarshalerOptions.Marshal, hi, hz, Value.Kind, Value.Interface, Value.asString]
  · rw [Indirect_ptrTo_defined_str]; rfl
  · rw [Indirect_ptrTo_defined_str]; exact hzd
  · simp [MarshalerOptions.Marshal, Indirect_ptrTo_defined_str, hzd, Value.Kind, Value.Interface,
      Value.asString]

theorem Marshal_string_kind_witness :
    MarshalerOptions.Marshal { ArrayBrackets := true } sampleEnv 3 (some (ptrTo 2 (.str "a=b")))
      = .ret (some [("q", ["a=b"])], none) ∧
    Marshal sampleEnv 3 (some (.defined {} (.str "a=b"))) = .crash :=
  ⟨(Marshal_string_kind { ArrayBrackets := true } sampleEnv 3 "a=b" 2 {} (by decide)).1.1,
   (Marshal_string_kind {} sampleEnv 3 "a=b" 0 {} (by decide)).2.2.2⟩


theorem Interface_eq_self (v : Value) (hv : v.IsValid = true) (hi : v.Kind ≠ .Interface) :
    v.Interface = some v := by
  unfold Value.Interface
  unfold Value.IsValid at hv
  cases hK : v.Kind <;> simp_all

theorem ValueString_str (env : Env) (s : String) (hs : s ≠ "") :
    ValueString env (.str s) = s := by
  simp [ValueString, IsZero_str, hs, Value.Interface, Value.Kind, fmtSprint, sprintValue]

theorem Interface_slot (boxed : Bool) (v : Value) (hv : v.IsValid = true)
    (hi : v.Kind ≠ .Interface) : (slot boxed v).Interface = some v := by
  cases boxed
  · simpa [slot] using Interface_eq_self v hv hi
  · simp [slot, Value.Interface, Value.Kind, Value.IsNil, Value.Elem]

theorem StringValueMap_single (env : Env) (k : String) (e v : Value) (hk : k ≠ "")
    (he : e.Interface = some v) :
    StringValueMap env (.map [(.str k, e)]) = [(k, v)] := by
  simp [StringValueMap, Value.MapRange, he, setEntry, ValueString_str env k hk]

theorem marshalAny_map_single (m : MarshalerOptions) (env : Env) (fuel : Nat) (out : Values)
    (k : String) (e v : Value) (scope : String) (hk : k ≠ "") (he : e.Interface = some v) :
    m.marshalAny env (fuel + 1) out (.map [(.str k, e)]) scope
      = wrapErr "marshal map"
          (m.marshalAny env fuel out v (if scope ≠ "" then scope ++ "[" ++ k ++ "]" else k)) := by
  rw [MarshalerOptions.marshalAny]
  simp only [Value.IsValid, Value.Kind, Value.Interface, Value.asMarshaler,
    MarshalerOptions.marshalMap,
    StringValueMap_single env k e v hk he, forEach]
  simp
  cases h : m.marshalAny env fuel out v (if scope = "" then k else scope ++ "[" ++ k ++ "]") with
  | ret a => obtain ⟨o, e⟩ := a; cases e <;> simp [wrapErr, forEach]
  | crash => simp [wrapErr]
  | outOfFuel => simp [wrapErr]


theorem verdict_wrapErr (ctx : String) (r : Outcome) : verdict (wrapErr ctx r) = verdict r := by
  cases r with
  | ret a => obtain ⟨o, e⟩ := a; cases e <;> rfl
  | crash => rfl
  | outOfFuel => rfl

/-- C4: for non-empty string keys `a`, `b` and a valid value `v`, the engine on
the mapping `{a: {b: v}}` at the empty scope does exactly what it does on `v` at
scope `a[b]`: the same output map, and an error exactly when the direct run
gives one (the error comes back wrapped twice with "marshal map"). The maps may
hold their values directly or behind the interface; the nested run needs two
more units of fuel, one per map level. -/
theorem scope_composition (m : MarshalerOptions) (env : Env) (fuel : Nat) (out : Values)
    (a b : String) (v : Value) (boxedOuter boxedInner : Bool)
    (ha : a ≠ "") (hb : b ≠ "") (hv : v.IsValid = true) (hi : v.Kind ≠ .Interface) :
    m.marshalAny env (fuel + 2) out
        (.map [(.str a, slot boxedOuter (.map [(.str b, slot boxedInner v)]))]) ""
      = wrapErr "marshal map" (wrapErr "marshal map"
          (m.marshalAny env fuel out v (a ++ "[" ++ b ++ "]"))) ∧
    verdict (m.marshalAny env (fuel + 2) out
        (.map [(.str a, slot boxedOuter (.map [(.str b, slot boxedInner v)]))]) "")
      = verdict (m.marshalAny env fuel out v (a ++ "[" ++ b ++ "]")) := by
  have h1 := marshalAny_map_single m env (fuel + 1) out a
    (slot boxedOuter (.map [(.str b, slot boxedInner v)])) (.map [(.str b, slot boxedInner v)]) ""
    ha (Interface_slot boxedOuter _ (by rfl) (by simp [Value.Kind]))
  have h2 := marshalAny_map_single m env fuel out b (slot boxedInner v) v a hb
    (Interface_slot boxedInner v hv hi)
  have h : m.marshalAny env (fuel + 2) out
        (.map [(.str a, slot boxedOuter (.map [(.str b, slot boxedInner v)]))]) ""
      = wrapErr "marshal map" (wrapErr "marshal map"
          (m.marshalAny env fuel out v (a ++ "[" ++ b ++ "]"))) := by
    rw [h1]
    simp only [ne_eq, not_true_eq_false, if_false]
    rw [h2]
    simp [ha]
  exact ⟨h, by rw [h, verdict_wrapErr, verdict_wrapErr]⟩

theorem scope_composition_witness :
    MarshalerOptions.marshalAny {} sampleEnv 4 [("x", ["0"])]
        (.map [(.str "a", slot true (.map [(.str "b", slot true (.slice [.int 1, .int 2]))]))]) ""
      = .ret ([("x", ["0"]), ("a[b]", ["1", "2"])], none) ∧
    MarshalerOptions.marshalAny {} sampleEnv 2 [("x", ["0"])] (.slice [.int 1, .int 2]) "a[b]"
      = .ret ([("x", ["0"]), ("a[b]", ["1", "2"])], none) :=
  ⟨(scope_composition {} sampleEnv 2 [("x", ["0"])] "a" "b" (.slice [.int 1, .int 2]) true true
      (by decide) (by decide) (by decide) (by decide)).1.trans (by decide),
   by decide⟩

theorem get_Add_self (out : Values) (k v : String) :
    (Values.Add out k v).get k = some ((out.get k).getD [] ++ [v]) := by
  induction out with
  | nil => simp [Values.Add, Values.get]
  | cons p rest ih =>
    obtain ⟨k0, vs⟩ := p
    by_cases h : k0 = k
    · simp [Values.Add, Values.get, h]
    · simp [Values.Add, Values.get, h, ih]

theorem get_Add_of_ne (out : Values) (k k1 v : String) (h : k1 ≠ k) :
    (Values.Add out k v).get k1 = out.get k1 := by
  induction out with
  | nil => simp [Values.Add, Values.get, Ne.symm h]
  | cons p rest ih =>
    obtain ⟨k0, vs⟩ := p
    by_cases h0 : k0 = k
    · subst h0
      simp [Values.Add, Values.get, Ne.symm h]
    · by_cases h1 : k0 = k1
      · subst h1
        simp [Values.Add, Values.get, h0]
      · simp [Values.Add, Values.get, h0, h1, ih]

theorem addAll_cons (out : Values) (k v : String) (vs : List String) :
    addAll out k (v :: vs) = addAll (out.Add k v) k vs := rfl

theorem get_addAll_of_ne (out : Values) (k k1 : String) (vs : List String) (h : k1 ≠ k) :
    (addAll out k vs).get k1 = out.get k1 := by
  induction vs generalizing out with
  | nil => rfl
  | cons v vs ih => rw [addAll_cons, ih, get_Add_of_ne _ _ _ _ h]

theorem get_addAll_self (out : Values) (k : String) (vs : List String) (h : vs ≠ []) :
    (addAll out k vs).get k = some ((out.get k).getD [] ++ vs) := by
  induction vs generalizing out with
  | nil => exact absurd rfl h
  | cons v vs ih =>
    rw [addAll_cons]
    cases vs with
    | nil => simpa [addAll] using get_Add_self out k v
    | cons w ws =>
      rw [ih _ (by simp), get_Add_self]
      simp

theorem elementScope_ne_empty (m : MarshalerOptions) (s : String) (hs : s ≠ "") :
    elementScope m s ≠ "" := by
  unfold elementScope
  split
  · intro h
    have := congrArg String.length h
    simp at this
    exact absurd this.2 (by decide)
  · exact hs

theorem append_brackets_ne (s : String) : s ++ "[]" ≠ s := by
  intro h
  have := congrArg String.length h
  simp at this
  exact absurd this (by decide)

theorem marshalAny_basic (m : MarshalerOptions) (env : Env) (fuel : Nat) (out : Values)
    (v : Value) (s : String) (h : isBasic v = true) :
    m.marshalAny env (fuel + 1) out v s
      = if s = "" then .ret (out, none) else .ret (out.Add s (renderBasic m env v), none) := by
  simp only [isBasic, Bool.and_eq_true, Option.isNone_iff_eq_none] at h
  obtain ⟨⟨hv, hc⟩, hk⟩ := h
  rw [MarshalerOptions.marshalAny]
  simp only [hv, hc]
  cases hK : v.Kind <;> simp [hK] at hk <;>
    by_cases hs : s = "" <;>
    simp [MarshalerOptions.marshalBasicTypes, renderBasic, hK, hs, wrapErr]

theorem forEach_basic (m : MarshalerOptions) (env : Env) (fuel : Nat) (s : String)
    (hs : s ≠ "") (es : List Value) (out : Values) (he : ∀ e ∈ es, isBasic e = true) :
    forEach (fun o v => m.marshalAny env (fuel + 1) o v s) es out
      = .ret (addAll out s (es.map (renderBasic m env)), none) := by
  induction es generalizing out with
  | nil => rfl
  | cons e es ih =>
    have h1 := marshalAny_basic m env fuel out e s (he e (by simp))
    simp only [hs, if_false] at h1
    simp only [forEach, h1, List.map_cons, addAll_cons]
    exact ih _ (fun x hx => he x (by simp [hx]))

theorem marshalAny_sequence (m : MarshalerOptions) (env : Env) (fuel : Nat) (out : Values)
    (val : Value) (s : String)
    (hk : val.Kind = .Array ∨ val.Kind = .Slice)
    (hc : Value.asMarshaler val.Interface = none) :
    m.marshalAny env (fuel + 1) out val s
      = wrapErr "marshal slice"
          (m.marshalSlice (fun o v k => m.marshalAny env fuel o v k) out val s) := by
  rw [MarshalerOptions.marshalAny]
  rcases hk with hk | hk <;> simp [Value.IsValid, hk, hc]

/-- C6: with `ArrayDelimiter` empty, an array or slice of primitive elements
encoded at a non-empty scope `s` gets one `Add` per element, in element order,
under `s` (or `s[]` with `ArrayBrackets`): afterwards that key holds its former
values followed by the renderings of the elements, and every other key is as
before. -/
theorem sequence_repeated_values (m : MarshalerOptions) (env : Env) (fuel : Nat) (out : Values)
    (val : Value) (s : String)
    (hd : m.ArrayDelimiter = "") (hs : s ≠ "")
    (hk : val.Kind = .Array ∨ val.Kind = .Slice)
    (hc : Value.asMarshaler val.Interface = none)
    (he : ∀ e ∈ val.Elems, isBasic e = true) :
    ∃ out1, m.marshalAny env (fuel + 2) out val s = .ret (out1, none) ∧
      out1 = addAll out (if m.ArrayBrackets then s ++ "[]" else s)
               (val.Elems.map (renderBasic m env)) ∧
      (val.Elems ≠ [] →
        out1.get (if m.ArrayBrackets then s ++ "[]" else s)
          = some ((out.get (if m.ArrayBrackets then s ++ "[]" else s)).getD []
                    ++ val.Elems.map (renderBasic m env))) ∧
      (∀ k, k ≠ (if m.ArrayBrackets then s ++ "[]" else s) → out1.get k = out.get k) := by
  have hne := elementScope_ne_empty m s hs
  have hrun : m.marshalAny env (fuel + 2) out val s
      = .ret (addAll out (elementScope m s) (val.Elems.map (renderBasic m env)), none) := by
    rw [marshalAny_sequence m env (fuel + 1) out val s hk hc]
    simp only [MarshalerOptions.marshalSlice, hd, if_true, SliceValues]
    have := forEach_basic m env fuel (elementScope m s) hne val.Elems out he
    simp only [elementScope] at this
    simp only [this]
    rfl
  refine ⟨_, hrun, rfl, ?_, ?_⟩
  · intro hnil
    exact get_addAll_self out _ _ (by simpa using hnil)
  · intro k hk1
    exact get_addAll_of_ne out _ k _ hk1

theorem sequence_repeated_values_witness :
    ∃ out1, MarshalerOptions.marshalAny { ArrayBrackets := true } sampleEnv 2 [("slice[]", ["0"])]
        (.slice [.int 1, .int 2]) "slice" = .ret (out1, none) ∧
      out1 = addAll [("slice[]", ["0"])] "slice[]" ["1", "2"] ∧
      ((Value.slice [.int 1, .int 2]).Elems ≠ [] →
        out1.get "slice[]" = some (["0"] ++ ["1", "2"])) ∧
      (∀ k, k ≠ "slice[]" → out1.get k = Values.get [("slice[]", ["0"])] k) :=
  sequence_repeated_values { ArrayBrackets := true } sampleEnv 0 [("slice[]", ["0"])]
    (.slice [.int 1, .int 2]) "slice" (by decide) (by decide) (by decide) rfl (by decide)

theorem marshalSlice_joined (m : MarshalerOptions) (env : Env) (fuel : Nat) (out : Values)
    (val : Value) (s : String)
    (hd : m.ArrayDelimiter ≠ "") (hs : s ≠ "")
    (hk : val.Kind = .Array ∨ val.Kind = .Slice)
    (hc : Value.asMarshaler val.Interface = none)
    (hne : val.Elems ≠ [])
    (he : ∀ e ∈ val.Elems, isBasic e = true) :
    m.marshalAny env (fuel + 2) out val s
      = .ret (out.Add (elementScope m s)
          (m.ArrayDelimiter.intercalate (val.Elems.map (renderBasic m env))), none) := by
  have hsc := elementScope_ne_empty m s hs
  rw [marshalAny_sequence m env (fuel + 1) out val s hk hc]
  have hloop := forEach_basic m env fuel (elementScope m s) hsc val.Elems [] he
  have hget : (addAll [] (elementScope m s) (val.Elems.map (renderBasic m env))).get
      (elementScope m s) = some (val.Elems.map (renderBasic m env)) := by
    rw [get_addAll_self _ _ _ (by simpa using hne)]
    simp [Values.get]
  simp only [elementScope] at hloop hget
  simp only [MarshalerOptions.marshalSlice, hd, if_false, SliceValues, hloop, hget]
  rfl

/-- C7: with a non-empty `ArrayDelimiter`, a non-empty array or slice of
primitive elements encoded at a non-empty scope makes the engine do exactly one
`Add` on the output: under the element scope (`s`, or `s[]` with
`ArrayBrackets`), of the elements' renderings in element order joined with the
delimiter. That key gains this one value and every other key is as before. -/
theorem sequence_joined_value (m : MarshalerOptions) (env : Env) (fuel : Nat) (out : Values)
    (val : Value) (s : String)
    (hd : m.ArrayDelimiter ≠ "") (hs : s ≠ "")
    (hk : val.Kind = .Array ∨ val.Kind = .Slice)
    (hc : Value.asMarshaler val.Interface = none)
    (hne : val.Elems ≠ [])
    (he : ∀ e ∈ val.Elems, isBasic e = true) :
    ∃ out1, m.marshalAny env (fuel + 2) out val s = .ret (out1, none) ∧
      out1 = out.Add (elementScope m s)
          (m.ArrayDelimiter.intercalate (val.Elems.map (renderBasic m env))) ∧
      (out1.get (elementScope m s)).getD []
        = (out.get (elementScope m s)).getD []
            ++ [m.ArrayDelimiter.intercalate (val.Elems.map (renderBasic m env))] ∧
      ∀ k, k ≠ elementScope m s → out1.get k = out.get k := by
  refine ⟨_, marshalSlice_joined m env fuel out val s hd hs hk hc hne he, rfl, ?_, ?_⟩
  · rw [get_Add_self]
    rfl
  · intro k hk1
    exact get_Add_of_ne _ _ _ _ hk1

theorem sequence_joined_value_witness :
    ∃ out1, MarshalerOptions.marshalAny { ArrayDelimiter := "|" } sampleEnv 2 [("a", ["x"])]
        (.array [.str "1", .str "2"]) "a" = .ret (out1, none) ∧
      out1 = [("a", ["x", "1|2"])] := by
  obtain ⟨out1, hrun, hout, _⟩ :=
    sequence_joined_value { ArrayDelimiter := "|" } sampleEnv 0 [("a", ["x"])]
      (.array [.str "1", .str "2"]) "a" (by decide) (by decide) (by decide) rfl
      (List.cons_ne_nil _ _) (by decide)
  exact ⟨out1, hrun, hout.trans (by decide)⟩

/-- C8, as stated, fails: with `ArrayBrackets` on and `ArrayDelimiter = "|"`,
the sequence `["1","2"]` at scope `slice` leaves the key `slice` absent and puts
the joined value under `slice[]`. -/
theorem joined_value_key_counterexample :
    ∃ out1, MarshalerOptions.marshalAny { ArrayBrackets := true, ArrayDelimiter := "|" }
        sampleEnv 2 [] (.slice [.str "1", .str "2"]) "slice" = .ret (out1, none) ∧
      out1.get "slice" = none ∧ out1.get "slice[]" = some ["1|2"] :=
  ⟨[("slice[]", ["1|2"])], by decide, by decide, by decide⟩

/-- C8, amended: with a non-empty `ArrayDelimiter`, the joined value of a
non-empty sequence of primitives encoded at a non-empty scope `s` is appended
under the element scope, which is `s` itself when `ArrayBrackets` is off and
`s[]` when it is on; no other key changes, so with `ArrayBrackets` on the key
`s` is left as it was. -/
theorem joined_value_key (m : MarshalerOptions) (env : Env) (fuel : Nat) (out : Values)
    (val : Value) (s : String)
    (hd : m.ArrayDelimiter ≠ "") (hs : s ≠ "")
    (hk : val.Kind = .Array ∨ val.Kind = .Slice)
    (hc : Value.asMarshaler val.Interface = none)
    (hne : val.Elems ≠ [])
    (he : ∀ e ∈ val.Elems, isBasic e = true) :
    ∃ out1, m.marshalAny env (fuel + 2) out val s = .ret (out1, none) ∧
      (m.ArrayBrackets = false →
        out1.get s = some ((out.get s).getD []
          ++ [m.ArrayDelimiter.intercalate (val.Elems.map (renderBasic m env))]) ∧
        ∀ k, k ≠ s → out1.get k = out.get k) ∧
      (m.ArrayBrackets = true →
        out1.get (s ++ "[]") = some ((out.get (s ++ "[]")).getD []
          ++ [m.ArrayDelimiter.intercalate (val.Elems.map (renderBasic m env))]) ∧
        out1.get s = out.get s ∧
        ∀ k, k ≠ s ++ "[]" → out1.get k = out.get k) := by
  refine ⟨_, marshalSlice_joined m env fuel out val s hd hs hk hc hne he, ?_, ?_⟩
  · intro hb
    simp only [elementScope, hb]
    exact ⟨get_Add_self _ _ _, fun k hk1 => get_Add_of_ne _ _ _ _ hk1⟩
  · intro hb
    simp only [elementScope, hb]
    exact ⟨get_Add_self _ _ _, get_Add_of_ne _ _ _ _ (append_brackets_ne s).symm,
      fun k hk1 => get_Add_of_ne _ _ _ _ hk1⟩

theorem joined_value_key_witness :
    ∃ out1, MarshalerOptions.marshalAny { ArrayBrackets := true, ArrayDelimiter := "," }
        sampleEnv 2 [("s", ["0"])] (.slice [.int 1, .int 2]) "s" = .ret (out1, none) ∧
      out1.get ("s" ++ "[]") = some ["1,2"] ∧ out1.get "s" = some ["0"] := by
  obtain ⟨out1, hrun, _, hon⟩ :=
    joined_value_key { ArrayBrackets := true, ArrayDelimiter := "," } sampleEnv 0 [("s", ["0"])]
      (.slice [.int 1, .int 2]) "s" (by decide) (by decide) (by decide) rfl
      (List.cons_ne_nil _ _) (by decide)
  obtain ⟨h1, h2, _⟩ := hon rfl
  exact ⟨out1, hrun, h1.trans (by decide), h2.trans (by decide)⟩

theorem marshalAny_time (m : MarshalerOptions) (env : Env) (fuel : Nat) (out : Values)
    (t : Time) (s : String) :
    m.marshalAny env (fuel + 1) out (.time t) s
      = if s = "" then .ret (out, none) else .ret (out.Add s (m.encodeTime env t), none) := by
  rw [MarshalerOptions.marshalAny]
  by_cases hk : s = "" <;>
    simp [Value.IsValid, Value.Kind, Value.Interface, Value.asMarshaler,
      MarshalerOptions.marshalStruct, Value.asTime, wrapErr, hk]

theorem renderBasic_iface (m : MarshalerOptions) (env : Env) (v : Value) :
    renderBasic m env (.iface v) = sprintValue env v := by
  simp [renderBasic, Value.Kind, MarshalerOptions.encodeAsString, ValueString, IsZero,
    Value.IsNil, Value.Interface, Value.Elem, fmtSprint]

theorem isBasic_iface (v : Value) (hc : Value.asMarshaler (some v) = none) :
    isBasic (.iface v) = true := by
  simp [isBasic, Value.IsValid, Value.Kind, Value.Interface, Value.IsNil, Value.Elem, hc]

theorem marshalAny_iface (m : MarshalerOptions) (env : Env) (fuel : Nat) (out : Values)
    (v : Value) (s : String) (hc : Value.asMarshaler (some v) = none) (hs : s ≠ "") :
    m.marshalAny env (fuel + 1) out (.iface v) s = .ret (out.Add s (sprintValue env v), none) := by
  rw [marshalAny_basic m env fuel out (.iface v) s (isBasic_iface v hc), renderBasic_iface]
  simp [hs]

theorem marshalAny_boxed_element (m : MarshalerOptions) (env : Env) (fuel : Nat) (out : Values)
    (v : Value) (s : String) (hc : Value.asMarshaler (some v) = none) (hs : s ≠ "") :
    m.marshalAny env (fuel + 2) out (.slice [.iface v]) s
      = .ret (out.Add (elementScope m s) (sprintValue env v), none) := by
  have hb : ∀ e ∈ (Value.slice [.iface v]).Elems, isBasic e = true := by
    intro e he
    simp only [Value.Elems, List.mem_singleton] at he
    rw [he]
    exact isBasic_iface v hc
  by_cases hd : m.ArrayDelimiter = ""
  · rw [marshalAny_sequence m env (fuel + 1) out (.slice [.iface v]) s (Or.inr rfl) rfl]
    have hloop := forEach_basic m env fuel (elementScope m s) (elementScope_ne_empty m s hs)
      (Value.slice [.iface v]).Elems out hb
    simp only [elementScope] at hloop
    simp only [MarshalerOptions.marshalSlice, hd, if_true, SliceValues, hloop]
    simp [Value.Elems, addAll, renderBasic_iface, wrapErr, elementScope]
  · rw [marshalSlice_joined m env fuel out (.slice [.iface v]) s hd hs (Or.inr rfl) rfl
      (List.cons_ne_nil _ _) hb]
    simp [Value.Elems, renderBasic_iface, String.intercalate, String.intercalate.go]

theorem Marshal_boxed_element (m : MarshalerOptions) (env : Env) (fuel : Nat)
    (k : String) (v : Value) (hc : Value.asMarshaler (some v) = none) (hk : k ≠ "") :
    m.Marshal env (fuel + 3) (some (.map [(.str k, .iface (.slice [.iface v]))]))
      = .ret (some [(elementScope m k, [sprintValue env v])], none) := by
  have h1 := marshalAny_map_single m env (fuel + 2) [] k (.iface (.slice [.iface v]))
    (.slice [.iface v]) "" hk rfl
  have hz : IsZero (Value.map [(.str k, .iface (.slice [.iface v]))]) = false := rfl
  have h2 := marshalAny_boxed_element m env fuel [] v k hc hk
  simp only [MarshalerOptions.Marshal, Indirect, hz, Value.Kind, h1, wrapErr]
  simp [hk, h2, wrapErr, Values.Add]

theorem Marshal_map_entry (m : MarshalerOptions) (env : Env) (fuel : Nat)
    (k : String) (v : Value) (out1 : Values) (hk : k ≠ "")
    (hrun : m.marshalAny env (fuel + 1) [] v k = .ret (out1, none)) :
    m.Marshal env (fuel + 2) (some (.map [(.str k, .iface v)])) = .ret (some out1, none) := by
  have h1 := marshalAny_map_single m env (fuel + 1) [] k (.iface v) v "" hk rfl
  have hz : IsZero (Value.map [(.str k, .iface v)]) = false := rfl
  simp only [MarshalerOptions.Marshal, Indirect, hz, Value.Kind, h1, wrapErr]
  simp [hk, hrun, wrapErr]

/-- C9 fails on the code for a boolean held in an interface-typed sequence.
A value of the predeclared type `bool` encoded at a non-empty scope `s` gets
exactly one `Add` under `s`: of "1" / "0" with `IntBool`, of "true" / "false"
without, never of the empty string although `false` is zero for `IsZero`; any
value of kind Bool gets "1" / "0" with `IntBool` and its `%v` form without; and
so does the value of a map entry, which `StringValueMap` unboxes. But the
element of a `[]any` reaches the engine as `v.Index(i)`, of kind Interface:
`marshalBasicTypes` takes its default branch and the boolean is added as
"true" / "false" under every configuration, also with `IntBool`. -/
theorem bool_rendering (m : MarshalerOptions) (env : Env) (fuel : Nat) (out : Values)
    (b : Bool) (s : String) (hs : s ≠ "") :
    (m.marshalAny env (fuel + 1) out (.bool b) s
        = .ret (out.Add s
            (if m.IntBool then (if b then "1" else "0") else (if b then "true" else "false")),
            none) ∧
      (if m.IntBool then (if b then "1" else "0") else (if b then "true" else "false")) ≠ "" ∧
      IsZero (.bool false) = true) ∧
    (∀ val : Value, val.Kind = .Bool → Value.asMarshaler val.Interface = none →
      m.marshalAny env (fuel + 1) out val s
        = .ret (out.Add s
            (if m.IntBool then (if val.toBool then "1" else "0") else fmtSprint env val.Interface),
            none)) ∧
    m.Marshal env (fuel + 2) (some (.map [(.str s, .iface (.bool b))]))
      = .ret (some [(s,
          [if m.IntBool then (if b then "1" else "0") else (if b then "true" else "false")])],
          none) ∧
    m.marshalAny env (fuel + 1) out (.iface (.bool b)) s
      = .ret (out.Add s (if b then "true" else "false"), none) ∧
    m.Marshal env (fuel + 3) (some (.map [(.str s, .iface (.slice [.iface (.bool b)]))]))
      = .ret (some [(elementScope m s, [if b then "true" else "false"])], none) := by
  have hplain : m.marshalAny env (fuel + 1) out (.bool b) s
      = .ret (out.Add s
          (if m.IntBool then (if b then "1" else "0") else (if b then "true" else "false")),
          none) := by
    rw [marshalAny_basic m env fuel out (.bool b) s rfl]
    cases hI : m.IntBool <;> cases b <;>
      simp [hs, renderBasic, Value.Kind, MarshalerOptions.encodeBool, hI, Value.toBool,
        Value.Interface, fmtSprint, sprintValue]
  have hsp : sprintValue env (.bool b) = if b then "true" else "false" := by
    cases b <;> rfl
  refine ⟨⟨hplain, ?_, rfl⟩, ?_, ?_, ?_, ?_⟩
  · cases m.IntBool <;> cases b <;> decide
  · intro val hk hc
    have hv : val.IsValid = true := by simp [Value.IsValid, hk]
    have hb : isBasic val = true := by simp [isBasic, hv, hc, hk]
    rw [marshalAny_basic m env fuel out val s hb]
    cases hI : m.IntBool <;>
      simp [hs, renderBasic, hk, MarshalerOptions.encodeBool, hI]
  · have h0 : m.marshalAny env (fuel + 1) [] (.bool b) s
        = .ret ([(s,
            [if m.IntBool then (if b then "1" else "0") else (if b then "true" else "false")])],
            none) := by
      rw [marshalAny_basic m env fuel [] (.bool b) s rfl]
      cases hI : m.IntBool <;> cases b <;>
        simp [hs, renderBasic, Value.Kind, MarshalerOptions.encodeBool, hI, Value.toBool,
          Value.Interface, fmtSprint, sprintValue, Values.Add]
    exact Marshal_map_entry m env fuel s (.bool b) _ hs h0
  · rw [marshalAny_iface m env fuel out (.bool b) s rfl hs, hsp]
  · rw [Marshal_boxed_element m env fuel s (.bool b) rfl hs, hsp]

theorem bool_rendering_witness :
    MarshalerOptions.marshalAny { IntBool := true } sampleEnv 1 [] (.bool false) "b"
      = .ret ([("b", ["0"])], none) ∧
    MarshalerOptions.Marshal { IntBool := true } sampleEnv 2
        (some (.map [(.str "b", .iface (.bool true))]))
      = .ret (some [("b", ["1"])], none) ∧
    MarshalerOptions.Marshal { IntBool := true } sampleEnv 3
        (some (.map [(.str "b", .iface (.slice [.iface (.bool true)]))]))
      = .ret (some [("b", ["true"])], none) :=
  ⟨(bool_rendering { IntBool := true } sampleEnv 0 [] false "b" (by decide)).1.1,
   (bool_rendering { IntBool := true } sampleEnv 0 [] true "b" (by decide)).2.2.1,
   (bool_rendering { IntBool := true } sampleEnv 0 [] true "b" (by decide)).2.2.2.2⟩

/-- C10 fails on the code for a timestamp held in an interface-typed sequence.
A `time.Time` encoded at a non-empty scope `s` (also as the value of a map
entry; the zero timestamp included) gets exactly one `Add` under `s`, of the
text chosen by strict priority: Unix seconds with `TimeUnix`; else milliseconds
with `TimeUnixMilli`; else nanoseconds with `TimeUnixNano`; else the time
formatted with `TimeLayout` when it is non-empty; else formatted with RFC 3339;
at the empty scope the output is left as it is. But the element of a `[]any`
reaches the engine as `v.Index(i)`, of kind Interface: it never comes to
`marshalStruct` and is added as `fmt.Sprint` prints it, under every
configuration; so, whatever `fmt.Sprint` prints for the time 5 s after the
epoch, some configuration encodes that element differently from the timestamp
itself. -/
theorem time_rendering (m : MarshalerOptions) (env : Env) (fuel : Nat) (out : Values)
    (t : Time) (s : String) :
    (∃ text : String,
      (s ≠ "" → m.marshalAny env (fuel + 1) out (.time t) s = .ret (out.Add s text, none)) ∧
      m.marshalAny env (fuel + 1) out (.time t) "" = .ret (out, none) ∧
      (s ≠ "" → m.Marshal env (fuel + 2) (some (.map [(.str s, .iface (.time t))]))
        = .ret (some [(s, [text])], none)) ∧
      (m.TimeUnix = true → text = toString t.Unix) ∧
      (m.TimeUnix = false → m.TimeUnixMilli = true → text = toString t.UnixMilli) ∧
      (m.TimeUnix = false → m.TimeUnixMilli = false → m.TimeUnixNano = true →
        text = toString t.UnixNano) ∧
      (m.TimeUnix = false → m.TimeUnixMilli = false → m.TimeUnixNano = false →
        m.TimeLayout ≠ "" → text = env.Format t m.TimeLayout) ∧
      (m.TimeUnix = false → m.TimeUnixMilli = false → m.TimeUnixNano = false →
        m.TimeLayout = "" → text = env.Format t RFC3339)) ∧
    (s ≠ "" →
      m.marshalAny env (fuel + 1) out (.iface (.time t)) s
        = .ret (out.Add s (env.Sprint (.time t)), none) ∧
      m.Marshal env (fuel + 3) (some (.map [(.str s, .iface (.slice [.iface (.time t)]))]))
        = .ret (some [(elementScope m s, [env.Sprint (.time t)])], none)) ∧
    ¬ (∀ m1 : MarshalerOptions,
        m1.marshalAny env 1 [] (.iface (.time ⟨5, 0, "UTC"⟩)) "t"
          = m1.marshalAny env 1 [] (.time ⟨5, 0, "UTC"⟩) "t") := by
  have hrun : ∀ (o : Values) (k : String), m.marshalAny env (fuel + 1) o (.time t) k
      = if k = "" then .ret (o, none) else .ret (o.Add k (m.encodeTime env t), none) :=
    fun o k => marshalAny_time m env fuel o t k
  refine ⟨⟨m.encodeTime env t, ?_, ?_, ?_, ?_, ?_, ?_, ?_, ?_⟩, ?_, ?_⟩
  · intro hs
    rw [hrun out s]
    simp [hs]
  · rw [hrun out ""]
    simp
  · intro hs
    refine Marshal_map_entry m env fuel s (.time t) _ hs ?_
    rw [hrun [] s]
    simp [hs, Values.Add]
  · intro h1
    simp [MarshalerOptions.encodeTime, h1]
  · intro h1 h2
    simp [MarshalerOptions.encodeTime, h1, h2]
  · intro h1 h2 h3
    simp [MarshalerOptions.encodeTime, h1, h2, h3]
  · intro h1 h2 h3 h4
    simp [MarshalerOptions.encodeTime, h1, h2, h3, h4]
  · intro h1 h2 h3 h4
    simp [MarshalerOptions.encodeTime, h1, h2, h3, h4]
  · intro hs
    exact ⟨marshalAny_iface m env fuel out (.time t) s rfl hs,
      Marshal_boxed_element m env fuel s (.time t) rfl hs⟩
  · intro h
    have h1 := h { TimeUnix := true }
    have h2 := h { TimeUnixMilli := true }
    rw [marshalAny_iface _ env 0 [] (.time ⟨5, 0, "UTC"⟩) "t" rfl (by decide),
      marshalAny_time] at h1 h2
    have h3 := h1.symm.trans h2
    revert h3
    simp [MarshalerOptions.encodeTime, Time.Unix, Time.UnixMilli, wrapInt64, Values.Add]
    decide

theorem time_rendering_witness :
    (∃ text : String,
      MarshalerOptions.marshalAny { TimeUnix := true, TimeUnixNano := true, TimeLayout := "x" }
        sampleEnv 1 [] (.time ⟨-62135596800, 0, "UTC"⟩) "time" = .ret ([("time", [text])], none) ∧
      text = "-62135596800") ∧
    MarshalerOptions.Marshal { TimeUnix := true } sampleEnv 2
        (some (.map [(.str "t", .iface (.time ⟨5, 0, "UTC"⟩))]))
      = .ret (some [("t", ["5"])], none) ∧
    MarshalerOptions.Marshal { TimeUnix := true } sampleEnv 3
        (some (.map [(.str "t", .iface (.slice [.iface (.time ⟨5, 0, "UTC"⟩)]))]))
      = .ret (some [("t", ["?"])], none) := by
  obtain ⟨⟨text, h1, _, _, h2, _⟩, _, _⟩ :=
    time_rendering { TimeUnix := true, TimeUnixNano := true, TimeLayout := "x" } sampleEnv 0 []
      ⟨-62135596800, 0, "UTC"⟩ "time"
  obtain ⟨⟨text5, _, _, h3, h4, _⟩, h5, _⟩ :=
    time_rendering { TimeUnix := true } sampleEnv 0 [] ⟨5, 0, "UTC"⟩ "t"
  refine ⟨⟨text, h1 (by decide), (h2 rfl).trans (by decide)⟩, ?_, (h5 (by decide)).2⟩
  rw [h3 (by decide), h4 rfl]
  decide

theorem ValueString_str_any (env : Env) (k : String) : ValueString env (.str k) = k := by
  by_cases hk : k = ""
  · subst hk
    rfl
  · exact ValueString_str env k hk

theorem setEntry_of_not_mem (acc : List (String × Value)) (k : String) (v : Value)
    (h : k ∉ acc.map Prod.fst) : setEntry acc k v = acc ++ [(k, v)] := by
  induction acc with
  | nil => rfl
  | cons p rest ih =>
    obtain ⟨k0, v0⟩ := p
    simp only [List.map_cons, List.mem_cons, not_or] at h
    simp [setEntry, Ne.symm h.1, ih h.2]

theorem isBasic_valid (v : Value) (h : isBasic v = true) : v.IsValid = true := by
  simp only [isBasic, Bool.and_eq_true] at h
  exact h.1.1

theorem isLeaf_valid (v : Value) (h : isLeaf v = true) : v.IsValid = true := by
  cases v <;> first | rfl | exact isBasic_valid _ h

theorem toValue_valid (t : Tree) (h : t.wf = true) : t.toValue.IsValid = true := by
  cases t with
  | leaf v => exact isLeaf_valid v (by simpa [Tree.wf] using h)
  | mapping boxed es => rfl
  | sequence fixed es => cases fixed <;> rfl

theorem Interface_slot_wf (boxed : Bool) (t : Tree) (hw : t.wf = true)
    (hb : (boxed || t.toValue.Kind != .Interface) = true) :
    (slot boxed t.toValue).Interface = some t.toValue := by
  cases boxed with
  | true => simp [slot, Value.Interface, Value.Kind, Value.IsNil, Value.Elem]
  | false =>
    have hk : t.toValue.Kind ≠ .Interface := by simpa using hb
    simpa [slot] using Interface_eq_self _ (toValue_valid t hw) hk

/-- The entries of the string-keyed view of a mapping. -/
theorem StringValueMap_fold (env : Env) (boxed : Bool) (es : List (String × Tree))
    (acc : List (String × Value))
    (hw : wfEntries boxed es = true)
    (hnd : (es.map Prod.fst).Nodup)
    (hdis : ∀ k ∈ es.map Prod.fst, k ∉ acc.map Prod.fst) :
    (entriesToValue boxed es).foldl
        (fun out kv =>
          match kv.2.Interface with
          | none => out
          | some mv => setEntry out (ValueString env kv.1) mv)
        acc
      = acc ++ es.map (fun p => (p.1, p.2.toValue)) := by
  induction es generalizing acc with
  | nil => simp [entriesToValue]
  | cons p rest ih =>
    obtain ⟨k, t⟩ := p
    simp only [wfEntries, Bool.and_eq_true] at hw
    obtain ⟨⟨hwt, hb⟩, hwr⟩ := hw
    simp only [List.map_cons, List.nodup_cons] at hnd
    have hk : k ∉ acc.map Prod.fst := hdis k (by simp)
    simp only [entriesToValue, List.foldl_cons, Interface_slot_wf boxed t hwt hb,
      ValueString_str_any, setEntry_of_not_mem acc k _ hk]
    rw [ih _ hwr hnd.2]
    · simp
    · intro k1 hk1
      simp only [List.map_append, List.map_cons, List.map_nil, List.mem_append,
        List.mem_singleton, not_or]
      refine ⟨hdis k1 (by simp [hk1]), ?_⟩
      rintro rfl
      exact hnd.1 hk1

theorem StringValueMap_mapping (env : Env) (boxed : Bool) (es : List (String × Tree))
    (hw : (Tree.mapping boxed es).wf = true) :
    StringValueMap env (Tree.mapping boxed es).toValue = es.map (fun p => (p.1, p.2.toValue)) := by
  simp only [Tree.wf, Bool.and_eq_true, decide_eq_true_eq] at hw
  have := StringValueMap_fold env boxed es [] hw.2 hw.1 (by simp)
  simpa [StringValueMap, Tree.toValue, Value.MapRange] using this

theorem marshalAny_leaf (m : MarshalerOptions) (env : Env) (fuel : Nat) (out : Values)
    (v : Value) (s : String) (h : isLeaf v = true) :
    m.marshalAny env (fuel + 1) out v s = .ret (emitLeaves m env out [(s, v)], none) := by
  have hb : (∃ t, v = .time t) ∨ (isBasic v = true ∧ leafText m env v = renderBasic m env v) := by
    cases v <;> first | exact Or.inl ⟨_, rfl⟩ | exact Or.inr ⟨h, rfl⟩
  rcases hb with ⟨t, rfl⟩ | ⟨hb, ht⟩
  · rw [marshalAny_time]
    by_cases hs : s = "" <;> simp [emitLeaves, leafText, hs]
  · rw [marshalAny_basic m env fuel out v s hb]
    by_cases hs : s = "" <;> simp [emitLeaves, ht, hs]

theorem emitLeaves_append (m : MarshalerOptions) (env : Env) (out : Values)
    (l1 l2 : List (String × Value)) :
    emitLeaves m env out (l1 ++ l2) = emitLeaves m env (emitLeaves m env out l1) l2 := by
  simp [emitLeaves, List.foldl_append]

theorem marshalAny_mapping (m : MarshalerOptions) (env : Env) (fuel : Nat) (out : Values)
    (boxed : Bool) (es : List (String × Tree)) (s : String)
    (hw : (Tree.mapping boxed es).wf = true) :
    m.marshalAny env (fuel + 1) out (Tree.mapping boxed es).toValue s
      = wrapErr "marshal map"
          (forEach (fun o kv => m.marshalAny env fuel o kv.2
              (if s ≠ "" then s ++ "[" ++ kv.1 ++ "]" else kv.1))
            (es.map (fun p => (p.1, p.2.toValue))) out) := by
  rw [MarshalerOptions.marshalAny]
  simp only [MarshalerOptions.marshalMap, StringValueMap_mapping env boxed es hw]
  simp [Tree.toValue, Value.IsValid, Value.Kind, Value.Interface, Value.asMarshaler]

theorem marshalAny_tree_sequence (m : MarshalerOptions) (env : Env) (fuel : Nat) (out : Values)
    (fixed : Bool) (es : List Tree) (s : String) (hd : m.ArrayDelimiter = "") :
    m.marshalAny env (fuel + 1) out (Tree.sequence fixed es).toValue s
      = wrapErr "marshal slice"
          (forEach (fun o v => m.marshalAny env fuel o v (if m.ArrayBrackets then s ++ "[]" else s))
            (elemsToValue es) out) := by
  have hk : (Tree.sequence fixed es).toValue.Kind = .Array ∨
      (Tree.sequence fixed es).toValue.Kind = .Slice := by
    cases fixed <;> simp [Tree.toValue, Value.Kind]
  have hc : Value.asMarshaler (Tree.sequence fixed es).toValue.Interface = none := by
    cases fixed <;> rfl
  have hel : (Tree.sequence fixed es).toValue.Elems = elemsToValue es := by
    cases fixed <;> rfl
  rw [marshalAny_sequence m env fuel out _ s hk hc]
  simp only [MarshalerOptions.marshalSlice, hd, if_true, SliceValues, hel]

mutual
theorem engine_on_tree (m : MarshalerOptions) (env : Env) (hd : m.ArrayDelimiter = "") :
    ∀ (t : Tree) (fuel : Nat) (out : Values) (s : String), t.wf = true → t.depth ≤ fuel →
      m.marshalAny env fuel out t.toValue s
        = .ret (emitLeaves m env out (t.leaves m.ArrayBrackets s), none)
  | .leaf v, fuel, out, s, hw, hf => by
    cases fuel with
    | zero => simp [Tree.depth] at hf
    | succ n =>
      simp only [Tree.toValue, Tree.leaves]
      exact marshalAny_leaf m env n out v s (by simpa [Tree.wf] using hw)
  | .mapping boxed es, fuel, out, s, hw, hf => by
    cases fuel with
    | zero => simp [Tree.depth] at hf
    | succ n =>
      rw [marshalAny_mapping m env n out boxed es s hw]
      simp only [Tree.wf, Bool.and_eq_true] at hw
      simp only [Tree.depth, Nat.add_le_add_iff_right] at hf
      rw [engine_on_entries m env hd boxed es n out s hw.2 hf]
      simp [wrapErr, Tree.leaves]
  | .sequence fixed es, fuel, out, s, hw, hf => by
    cases fuel with
    | zero => simp [Tree.depth] at hf
    | succ n =>
      rw [marshalAny_tree_sequence m env n out fixed es s hd]
      simp only [Tree.wf] at hw
      simp only [Tree.depth, Nat.add_le_add_iff_right] at hf
      rw [engine_on_elems m env hd es n out _ hw hf]
      simp [wrapErr, Tree.leaves]
theorem engine_on_entries (m : MarshalerOptions) (env : Env) (hd : m.ArrayDelimiter = "")
    (boxed : Bool) :
    ∀ (es : List (String × Tree)) (fuel : Nat) (out : Values) (s : String),
      wfEntries boxed es = true → depthEntries es ≤ fuel →
      forEach (fun o kv => m.marshalAny env fuel o kv.2
          (if s ≠ "" then s ++ "[" ++ kv.1 ++ "]" else kv.1))
        (es.map (fun p => (p.1, p.2.toValue))) out
        = .ret (emitLeaves m env out (leavesEntries m.ArrayBrackets s es), none)
  | [], fuel, out, s, _, _ => by simp [forEach, leavesEntries, emitLeaves]
  | (k, t) :: rest, fuel, out, s, hw, hf => by
    simp only [wfEntries, Bool.and_eq_true] at hw
    simp only [depthEntries, Nat.max_le] at hf
    have h1 := engine_on_tree m env hd t fuel out
      (if s ≠ "" then s ++ "[" ++ k ++ "]" else k) hw.1.1 hf.1
    have h2 := engine_on_entries m env hd boxed rest fuel
      (emitLeaves m env out (t.leaves m.ArrayBrackets (if s ≠ "" then s ++ "[" ++ k ++ "]" else k)))
      s hw.2 hf.2
    simp only [List.map_cons, forEach, h1, h2, leavesEntries, emitLeaves_append]
    by_cases hs : s = "" <;> simp [hs]
theorem engine_on_elems (m : MarshalerOptions) (env : Env) (hd : m.ArrayDelimiter = "") :
    ∀ (es : List Tree) (fuel : Nat) (out : Values) (s : String),
      wfElems es = true → depthElems es ≤ fuel →
      forEach (fun o v => m.marshalAny env fuel o v s) (elemsToValue es) out
        = .ret (emitLeaves m env out (leavesElems m.ArrayBrackets s es), none)
  | [], fuel, out, s, _, _ => by simp [forEach, elemsToValue, leavesElems, emitLeaves]
  | t :: rest, fuel, out, s, hw, hf => by
    simp only [wfElems, Bool.and_eq_true] at hw
    simp only [depthElems, Nat.max_le] at hf
    have h1 := engine_on_tree m env hd t fuel out s hw.1 hf.1
    have h2 := engine_on_elems m env hd rest fuel
      (emitLeaves m env out (t.leaves m.ArrayBrackets s)) s hw.2 hf.2
    simp only [elemsToValue, forEach, h1, h2, leavesElems, emitLeaves_append]
end

theorem mem_keys_iff_get (out : Values) (k : String) : k ∈ out.keys ↔ out.get k ≠ none := by
  induction out with
  | nil => simp [Values.keys, Values.get]
  | cons p rest ih =>
    obtain ⟨k0, vs⟩ := p
    by_cases h : k0 = k
    · simp [Values.keys, Values.get, h]
    · have h1 : ¬ k = k0 := fun e => h e.symm
      simp only [Values.keys] at ih
      simp [Values.keys, Values.get, h, h1, ih]

theorem get_emitLeaves_empty_key (m : MarshalerOptions) (env : Env) (ls : List (String × Value))
    (out : Values) : (emitLeaves m env out ls).get "" = out.get "" := by
  induction ls generalizing out with
  | nil => rfl
  | cons p ls ih =>
    by_cases hp : p.1 = ""
    · simpa [emitLeaves, hp] using ih out
    · have h := ih (out.Add p.1 (leafText m env p.2))
      rw [get_Add_of_ne _ _ _ _ (Ne.symm hp)] at h
      simpa [emitLeaves, hp] using h

theorem get_emitLeaves (m : MarshalerOptions) (env : Env) (k : String) (hk : k ≠ "")
    (ls : List (String × Value)) (out : Values) :
    (emitLeaves m env out ls).get k
      = if (ls.filter (fun p => p.1 = k)).map (fun p => leafText m env p.2) = [] then out.get k
        else some ((out.get k).getD []
          ++ (ls.filter (fun p => p.1 = k)).map (fun p => leafText m env p.2)) := by
  induction ls generalizing out with
  | nil => simp [emitLeaves]
  | cons p ls ih =>
    by_cases hp : p.1 = ""
    · have hpk : ¬ p.1 = k := fun e => hk (e ▸ hp)
      have hf : (p :: ls).filter (fun p => p.1 = k) = ls.filter (fun p => p.1 = k) :=
        List.filter_cons_of_neg (by simpa using hpk)
      have h2 : emitLeaves m env out (p :: ls) = emitLeaves m env out ls := by
        simp [emitLeaves, hp]
      rw [h2, hf]
      exact ih out
    · have h2 : emitLeaves m env out (p :: ls)
          = emitLeaves m env (out.Add p.1 (leafText m env p.2)) ls := by
        simp [emitLeaves, hp]
      by_cases hpk : p.1 = k
      · have hf : (p :: ls).filter (fun p => p.1 = k) = p :: ls.filter (fun p => p.1 = k) :=
          List.filter_cons_of_pos (by simpa using hpk)
        have h := ih (out.Add p.1 (leafText m env p.2))
        rw [hpk, get_Add_self] at h
        rw [h2, hf, hpk, h]
        by_cases hr : (ls.filter (fun p => p.1 = k)).map (fun p => leafText m env p.2) = []
        · simp [hr]
        · simp [hr]
      · have hf : (p :: ls).filter (fun p => p.1 = k) = ls.filter (fun p => p.1 = k) :=
          List.filter_cons_of_neg (by simpa using hpk)
        have h := ih (out.Add p.1 (leafText m env p.2))
        rw [get_Add_of_ne _ _ _ _ (Ne.symm hpk)] at h
        rw [h2, hf, h]

theorem Interface_valid_of_asMarshaler (val : Value)
    (enc : String → Values → Values × Option Error)
    (hc : Value.asMarshaler val.Interface = some enc) : val.IsValid = true := by
  unfold Value.IsValid
  cases hK : val.Kind <;> simp_all [Value.Interface, Value.asMarshaler]

/-- C11: a custom-encodable value, whatever its kind, is handled by its own
`EncodeValues` alone: the output after the engine's call is the output after
`EncodeValues(scope, out)`, and the engine returns an error exactly when
`EncodeValues` does (that error, wrapped with "EncodeValues"). -/
theorem custom_encoder_priority (m : MarshalerOptions) (env : Env) (fuel : Nat) (out : Values)
    (val : Value) (s : String) (enc : String → Values → Values × Option Error)
    (hc : Value.asMarshaler val.Interface = some enc) :
    m.marshalAny env (fuel + 1) out val s
      = .ret ((enc s out).1, (enc s out).2.map (Error.wrapped "EncodeValues")) ∧
    verdict (m.marshalAny env (fuel + 1) out val s) = .ret ((enc s out).1, (enc s out).2.isSome) := by
  have hv := Interface_valid_of_asMarshaler val enc hc
  have h : m.marshalAny env (fuel + 1) out val s
      = .ret ((enc s out).1, (enc s out).2.map (Error.wrapped "EncodeValues")) := by
    rw [MarshalerOptions.marshalAny]
    simp only [hv, hc]
    rcases henc : enc s out with ⟨o, e⟩
    cases e <;> simp
  refine ⟨h, ?_⟩
  rw [h]
  rcases enc s out with ⟨o, e⟩
  cases e <;> rfl

theorem custom_encoder_priority_witness :
    MarshalerOptions.marshalAny { ArrayBrackets := true } sampleEnv 1 [("k", ["0"])]
        (.defined { encodeValues := some (fun key o => (o.Add key "$10", none)) }
          (.map [(.str "a", .int 1)])) "k"
      = .ret ([("k", ["0", "$10"])], none) :=
  (custom_encoder_priority { ArrayBrackets := true } sampleEnv 0 [("k", ["0"])]
    (.defined { encodeValues := some (fun key o => (o.Add key "$10", none)) }
      (.map [(.str "a", .int 1)])) "k" (fun key o => (o.Add key "$10", none)) rfl).1

/-- C13 fails on the code: on a nil pointer that is not custom-encodable
`marshalPtr` calls `marshalAny` on the same nil pointer again, so the engine
never returns, whatever the fuel; `Marshal` of `{"p": (*int)(nil)}` never
returns either. -/
theorem nil_pointer_never_returns (m : MarshalerOptions) (env : Env) :
    (∀ (fuel : Nat) (out : Values) (s : String),
      m.marshalAny env fuel out .nilPtr s = .outOfFuel) ∧
    (∀ fuel : Nat,
      m.Marshal env fuel (some (.map [(.str "p", .iface .nilPtr)])) = .outOfFuel) := by
  have h : ∀ (fuel : Nat) (out : Values) (s : String),
      m.marshalAny env fuel out .nilPtr s = .outOfFuel := by
    intro fuel
    induction fuel with
    | zero => intro out s; rfl
    | succ n ih =>
      intro out s
      rw [MarshalerOptions.marshalAny]
      simp [Value.IsValid, Value.Kind, Value.Interface, Value.asMarshaler,
        MarshalerOptions.marshalPtr, Indirect, ih, wrapErr]
  refine ⟨h, ?_⟩
  intro fuel
  cases fuel with
  | zero => rfl
  | succ n =>
    have h1 := marshalAny_map_single m env n [] "p" (.iface .nilPtr) .nilPtr ""
      (by decide) rfl
    have hz : IsZero (Value.map [(.str "p", .iface .nilPtr)]) = false := rfl
    simp only [MarshalerOptions.Marshal, Indirect, hz, Value.Kind, h1, h, wrapErr]
    rfl

theorem Indirect_of_not_ptr (v : Value) (hk : v.Kind ≠ .Ptr) : Indirect v = v := by
  cases v with
  | defined ms u =>
    have hu : u.Kind ≠ .Ptr := by simpa [Value.Kind] using hk
    simp [Indirect, hu]
  | ptr e => simp [Value.Kind] at hk
  | _ => rfl

theorem Indirect_of_nil_ptr (v : Value) (hk : v.Kind = .Ptr) (hn : v.IsNil = true) :
    Indirect v = v := by
  cases v with
  | defined ms u =>
    have hu : u.IsNil = true := by simpa [Value.IsNil] using hn
    simp [Indirect, hu]
  | ptr e => simp [Value.IsNil] at hn
  | _ => rfl

theorem Indirect_of_ptr : ∀ v : Value, v.Kind = .Ptr → v.IsNil = false →
    Indirect v = Indirect v.Elem
  | .ptr e, _, _ => by simp [Indirect, Value.Elem]
  | .defined ms u, hk, hn => by
    have hku : u.Kind = .Ptr := by simpa [Value.Kind] using hk
    have hnu : u.IsNil = false := by simpa [Value.IsNil] using hn
    have ih := Indirect_of_ptr u hku hnu
    simp [Indirect, Value.Elem, hku, hnu, ih]
  | .nilPtr, _, hn => by simp [Value.IsNil] at hn
  | .invalid, hk, _ => by simp [Value.Kind] at hk
  | .bool _, hk, _ => by simp [Value.Kind] at hk
  | .int _, hk, _ => by simp [Value.Kind] at hk
  | .uint _, hk, _ => by simp [Value.Kind] at hk
  | .float _, hk, _ => by simp [Value.Kind] at hk
  | .str _, hk, _ => by simp [Value.Kind] at hk
  | .array _, hk, _ => by simp [Value.Kind] at hk
  | .slice _, hk, _ => by simp [Value.Kind] at hk
  | .map _, hk, _ => by simp [Value.Kind] at hk
  | .time _, hk, _ => by simp [Value.Kind] at hk
  | .struct _, hk, _ => by simp [Value.Kind] at hk
  | .nilIface, hk, _ => by simp [Value.Kind] at hk
  | .iface _, hk, _ => by simp [Value.Kind] at hk
  | .other k, hk, _ => by cases k <;> simp [Value.Kind] at hk

theorem marshalAny_ptr (m : MarshalerOptions) (env : Env) (fuel : Nat) (out : Values)
    (p : Value) (s : String) (hk : p.Kind = .Ptr)
    (hc : Value.asMarshaler p.Interface = none) :
    m.marshalAny env (fuel + 1) out p s
      = wrapErr "marshal pointer" (m.marshalAny env fuel out (Indirect p) s) := by
  rw [MarshalerOptions.marshalAny]
  simp [Value.IsValid, hk, hc, MarshalerOptions.marshalPtr]

/-- C14, as stated, fails: for a pointer to a pointer whose type is
custom-encodable, the engine on the outer pointer follows both pointers and
renders the integer `10`, while on the one-level unwrapping it calls the custom
encoder, which writes `$10`. -/
theorem pointer_transparency_counterexample :
    MarshalerOptions.marshalAny {} sampleEnv 3 []
        (.ptr (.defined { encodeValues := some (fun key o => (o.Add key "$10", none)) }
          (.ptr (.int 10)))) "k"
      = .ret ([("k", ["10"])], none) ∧
    MarshalerOptions.marshalAny {} sampleEnv 3 []
        (Value.Elem (.ptr (.defined { encodeValues := some (fun key o => (o.Add key "$10", none)) }
          (.ptr (.int 10))))) "k"
      = .ret ([("k", ["$10"])], none) := by
  constructor <;> decide

/-- C14, amended: for a non-nil pointer `p` that is not itself custom-encodable,
the engine on `p` does what it does on the fully dereferenced value
`Indirect p` at the same scope (same output, error exactly when that run gives
one). So it agrees with the run on the one-level unwrapping `p.Elem` whenever
`p.Elem` is not a pointer, and whenever `p.Elem` is a pointer that is not
custom-encodable. -/
theorem pointer_transparency (m : MarshalerOptions) (env : Env) (fuel : Nat) (out : Values)
    (p : Value) (s : String) (hk : p.Kind = .Ptr) (hn : p.IsNil = false)
    (hc : Value.asMarshaler p.Interface = none) :
    verdict (m.marshalAny env (fuel + 1) out p s)
      = verdict (m.marshalAny env fuel out (Indirect p) s) ∧
    (p.Elem.Kind ≠ .Ptr →
      verdict (m.marshalAny env (fuel + 1) out p s)
        = verdict (m.marshalAny env fuel out p.Elem s)) ∧
    (p.Elem.Kind = .Ptr → Value.asMarshaler p.Elem.Interface = none →
      verdict (m.marshalAny env (fuel + 1) out p s)
        = verdict (m.marshalAny env (fuel + 1) out p.Elem s)) := by
  have h1 := marshalAny_ptr m env fuel out p s hk hc
  have hi := Indirect_of_ptr p hk hn
  refine ⟨by rw [h1, verdict_wrapErr], ?_, ?_⟩
  · intro hke
    rw [h1, verdict_wrapErr, hi, Indirect_of_not_ptr _ hke]
  · intro hke hce
    rw [h1, marshalAny_ptr m env fuel out p.Elem s hke hce, verdict_wrapErr, verdict_wrapErr, hi]

theorem pointer_transparency_witness :
    verdict (MarshalerOptions.marshalAny {} sampleEnv 2 [] (.ptr (.time ⟨5, 0, "UTC"⟩)) "t")
      = verdict (MarshalerOptions.marshalAny {} sampleEnv 1 [] (.time ⟨5, 0, "UTC"⟩) "t") ∧
    MarshalerOptions.marshalAny {} sampleEnv 2 [] (.ptr (.time ⟨5, 0, "UTC"⟩)) "t"
      = .ret ([("t", ["2006-01-02T15:04:05Z07:00@5"])], none) :=
  ⟨(pointer_transparency {} sampleEnv 1 [] (.ptr (.time ⟨5, 0, "UTC"⟩)) "t" rfl rfl rfl).2.1
      (by decide),
   by decide⟩

/-- C17: for a value whose kind is not Bool, `marshalBasicTypes` never fails;
at the empty scope it leaves the output as it is; at a non-empty scope `s` it
does one `Add` under `s`, of the empty string when the value is zero per
`IsZero` and of its `fmt.Sprint` form otherwise, so that `s` gains exactly this
value and every other key is as before. The integer 0 and the empty string both
give "". The engine does the same on every primitive that is not a boolean. -/
theorem primitive_rule (m : MarshalerOptions) (env : Env) (out : Values) (val : Value)
    (s : String) (hb : val.Kind ≠ .Bool) :
    m.marshalBasicTypes env out val "" = .ret (out, none) ∧
    (s ≠ "" →
      m.marshalBasicTypes env out val s
        = .ret (out.Add s (if IsZero val then "" else fmtSprint env val.Interface), none) ∧
      (out.Add s (if IsZero val then "" else fmtSprint env val.Interface)).get s
        = some ((out.get s).getD [] ++ [if IsZero val then "" else fmtSprint env val.Interface]) ∧
      ∀ k, k ≠ s →
        (out.Add s (if IsZero val then "" else fmtSprint env val.Interface)).get k = out.get k) ∧
    (∀ fuel, isBasic val = true →
      m.marshalAny env (fuel + 1) out val s = m.marshalBasicTypes env out val s) ∧
    (if IsZero (.int 0) then "" else fmtSprint env (Value.int 0).Interface) = "" ∧
    (if IsZero (.str "") then "" else fmtSprint env (Value.str "").Interface) = "" := by
  have hrender : renderBasic m env val = if IsZero val then "" else fmtSprint env val.Interface := by
    unfold renderBasic
    cases hK : val.Kind <;> simp [hK] at hb <;>
      simp [MarshalerOptions.encodeAsString, ValueString]
  have hrun : ∀ k : String, m.marshalBasicTypes env out val k
      = if k = "" then .ret (out, none) else .ret (out.Add k (renderBasic m env val), none) := by
    intro k
    unfold MarshalerOptions.marshalBasicTypes renderBasic
    rfl
  refine ⟨by rw [hrun]; simp, ?_, ?_, rfl, rfl⟩
  · intro hs
    refine ⟨by rw [hrun, hrender]; simp [hs], get_Add_self _ _ _, ?_⟩
    intro k hk
    exact get_Add_of_ne _ _ _ _ hk
  · intro fuel hbasic
    rw [marshalAny_basic m env fuel out val s hbasic, hrun]

theorem primitive_rule_witness :
    MarshalerOptions.marshalBasicTypes {} sampleEnv [("n", ["7"])] (.int 0) "n"
      = .ret ([("n", ["7", ""])], none) ∧
    MarshalerOptions.marshalBasicTypes {} sampleEnv [("n", ["7"])] (.uint 42) "n"
      = .ret ([("n", ["7", "42"])], none) :=
  ⟨((primitive_rule {} sampleEnv [("n", ["7"])] (.int 0) "n" (by decide)).2.1 (by decide)).1,
   ((primitive_rule {} sampleEnv [("n", ["7"])] (.uint 42) "n" (by decide)).2.1 (by decide)).1⟩

theorem StringValueMap_skip_nil (env : Env) (pre post : List (Value × Value)) (key : Value) :
    StringValueMap env (.map (pre ++ (key, .nilIface) :: post))
      = StringValueMap env (.map (pre ++ post)) := by
  simp [StringValueMap, Value.MapRange, List.foldl_append, Value.Interface, Value.Kind,
    Value.IsNil]

/-- C18: in every configuration, at every scope and on every output, the engine
leaves the output as it is on an empty slice, an empty array and an empty
mapping (no key is created); and a mapping entry whose value is the nil
interface is skipped: the mapping encodes exactly as the mapping without that
entry, for every fuel. -/
theorem empties_contribute_nothing (m : MarshalerOptions) (env : Env) (out : Values)
    (s : String) :
    (∀ fuel, m.marshalAny env (fuel + 1) out (.slice []) s = .ret (out, none)) ∧
    (∀ fuel, m.marshalAny env (fuel + 1) out (.array []) s = .ret (out, none)) ∧
    (∀ fuel, m.marshalAny env (fuel + 1) out (.map []) s = .ret (out, none)) ∧
    (∀ (fuel : Nat) (pre post : List (Value × Value)) (key : Value),
      m.marshalAny env fuel out (.map (pre ++ (key, .nilIface) :: post)) s
        = m.marshalAny env fuel out (.map (pre ++ post)) s) := by
  refine ⟨?_, ?_, ?_, ?_⟩
  · intro fuel
    rw [marshalAny_sequence m env fuel out (.slice []) s (Or.inr rfl) rfl]
    by_cases hd : m.ArrayDelimiter = "" <;>
      simp [MarshalerOptions.marshalSlice, hd, SliceValues, Value.Elems, forEach, Values.get,
        wrapErr]
  · intro fuel
    rw [marshalAny_sequence m env fuel out (.array []) s (Or.inl rfl) rfl]
    by_cases hd : m.ArrayDelimiter = "" <;>
      simp [MarshalerOptions.marshalSlice, hd, SliceValues, Value.Elems, forEach, Values.get,
        wrapErr]
  · intro fuel
    rw [MarshalerOptions.marshalAny]
    simp [Value.IsValid, Value.Kind, Value.Interface, Value.asMarshaler,
      MarshalerOptions.marshalMap, StringValueMap, Value.MapRange, forEach, wrapErr]
  · intro fuel pre post key
    cases fuel with
    | zero => rfl
    | succ n =>
      rw [MarshalerOptions.marshalAny, MarshalerOptions.marshalAny]
      simp only [Value.IsValid, Value.Kind, Value.Interface, Value.asMarshaler,
        MarshalerOptions.marshalMap, StringValueMap_skip_nil]

theorem effKey_injective (scope k1 k2 : String) (h : effKey scope k1 = effKey scope k2) :
    k1 = k2 := by
  unfold effKey at h
  by_cases hs : scope = ""
  · simpa [hs] using h
  · simp only [ne_eq, hs, not_false_eq_true, if_true] at h
    have hd := congrArg String.data h
    simp only [String.data_append, List.append_assoc] at hd
    have h1 := List.append_cancel_left hd
    have h2 := List.append_cancel_left h1
    have h3 := List.append_cancel_right h2
    exact String.ext h3

theorem MergeURLValues_eq (dst src : Values) (scope : String) :
    MergeURLValues dst src scope
      = src.foldl (fun d kv => addAll d (effKey scope kv.1) kv.2) dst := rfl

theorem MergeURLValues_cons (dst : Values) (kv : String × List String) (src : Values)
    (scope : String) :
    MergeURLValues dst (kv :: src) scope
      = MergeURLValues (addAll dst (effKey scope kv.1) kv.2) src scope := rfl

theorem get_addAll (out : Values) (k : String) (vs : List String) :
    (addAll out k vs).get k = if vs = [] then out.get k else some ((out.get k).getD [] ++ vs) := by
  by_cases h : vs = []
  · subst h
    rfl
  · simp [h, get_addAll_self out k vs h]

theorem get_Merge_of_not_mem (src : Values) (dst : Values) (scope key : String)
    (h : ∀ kv ∈ src, effKey scope kv.1 ≠ key) :
    (MergeURLValues dst src scope).get key = dst.get key := by
  induction src generalizing dst with
  | nil => rfl
  | cons kv src ih =>
    rw [MergeURLValues_cons, ih _ (fun x hx => h x (List.mem_cons_of_mem _ hx))]
    exact get_addAll_of_ne dst _ key _ (Ne.symm (h kv (List.mem_cons_self _ _)))

theorem get_Merge_of_mem (src : Values) (dst : Values) (scope k : String) (vs : List String)
    (hnd : (src.map Prod.fst).Nodup) (hm : (k, vs) ∈ src) :
    (MergeURLValues dst src scope).get (effKey scope k)
      = if vs = [] then dst.get (effKey scope k)
        else some ((dst.get (effKey scope k)).getD [] ++ vs) := by
  induction src generalizing dst with
  | nil => cases hm
  | cons kv src ih =>
    simp only [List.map_cons, List.nodup_cons] at hnd
    rw [MergeURLValues_cons]
    rcases List.mem_cons.mp hm with heq | hin
    · subst heq
      rw [get_Merge_of_not_mem, get_addAll]
      intro x hx hkey
      have hk : x.1 = k := effKey_injective _ _ _ hkey
      have hx1 : x.1 ∈ src.map Prod.fst := List.mem_map_of_mem Prod.fst hx
      rw [hk] at hx1
      exact hnd.1 hx1
    · have hne : kv.1 ≠ k := by
        intro hk
        exact hnd.1 (hk ▸ List.mem_map_of_mem Prod.fst hin)
      have hkey : effKey scope k ≠ effKey scope kv.1 :=
        fun h => hne (effKey_injective _ _ _ h).symm
      rw [ih _ hnd.2 hin, get_addAll_of_ne dst _ _ _ hkey]

/-- C19: `MergeURLValues(dst, src, scope)`, for a source map `src` (its keys
are distinct) visited in any order: under the effective key of every key `k` of
`src` the values are those that were there followed by `src[k]` in order; a key
that is the effective key of no key of `src` is unchanged; and the result is
the same map for every order in which the entries of `src` are visited. The
function only reads `src`. -/
theorem MergeURLValues_spec (dst src : Values) (scope : String)
    (hnd : (src.map Prod.fst).Nodup) :
    (∀ k vs, (k, vs) ∈ src →
      ((MergeURLValues dst src scope).get (effKey scope k)).getD []
        = (dst.get (effKey scope k)).getD [] ++ vs) ∧
    (∀ key, (∀ kv ∈ src, effKey scope kv.1 ≠ key) →
      (MergeURLValues dst src scope).get key = dst.get key) ∧
    (∀ src1 : Values, src1.Perm src →
      ∀ key, (MergeURLValues dst src1 scope).get key = (MergeURLValues dst src scope).get key) := by
  refine ⟨?_, ?_, ?_⟩
  · intro k vs hm
    rw [get_Merge_of_mem src dst scope k vs hnd hm]
    by_cases hvs : vs = []
    · simp [hvs]
    · simp [hvs]
  · intro key h
    exact get_Merge_of_not_mem src dst scope key h
  · intro src1 hp key
    have hnd1 : (src1.map Prod.fst).Nodup := (hp.map Prod.fst).nodup_iff.mpr hnd
    by_cases hex : ∃ kv ∈ src, effKey scope kv.1 = key
    · obtain ⟨⟨k, vs⟩, hm, hkey⟩ := hex
      subst hkey
      rw [get_Merge_of_mem src dst scope k vs hnd hm,
        get_Merge_of_mem src1 dst scope k vs hnd1 (hp.mem_iff.mpr hm)]
    · have h : ∀ kv ∈ src, effKey scope kv.1 ≠ key := fun kv hkv hk => hex ⟨kv, hkv, hk⟩
      rw [get_Merge_of_not_mem src dst scope key h,
        get_Merge_of_not_mem src1 dst scope key (fun kv hkv => h kv (hp.mem_iff.mp hkv))]

theorem MergeURLValues_spec_witness :
    ((MergeURLValues [("o[int]", ["1"])] [("int", ["100"]), ("slice", ["1", "2"])] "o").get
        (effKey "o" "int")).getD [] = ["1"] ++ ["100"] ∧
    (MergeURLValues [("o[int]", ["1"])] [("slice", ["1", "2"]), ("int", ["100"])] "o").get
        "o[slice]" = some ["1", "2"] := by
  obtain ⟨h1, _, h3⟩ :=
    MergeURLValues_spec [("o[int]", ["1"])] [("int", ["100"]), ("slice", ["1", "2"])] "o"
      (by decide)
  exact ⟨h1 "int" ["100"] (by decide),
    (h3 [("slice", ["1", "2"]), ("int", ["100"])] (List.Perm.swap _ _ _) "o[slice]").trans
      (by decide)⟩

/-- C20, as stated, fails: the floating-point number 0 is zero for `IsZero`,
and it is none of the shapes the claim lists, is valid and has no `IsZero`
method, so the claimed definition says it is not zero. -/
theorem IsZero_counterexample :
    IsZero (.float 0) = true ∧ zeroAsClaimed (.float 0) = false := by
  constructor <;> decide

/-- C20, amended: `IsZero` equals the reference definition with the
floating-point case added, for every value whose float bit pattern is a
binary64 pattern; an array with at least one element is not zero whatever its
elements are. -/
theorem IsZero_eq_reference :
    (∀ v : Value, v.toFloatBits < 2 ^ 64 → IsZero v = zeroReference v) ∧
    (∀ (e : Value) (es : List Value), IsZero (.array (e :: es)) = false) := by
  refine ⟨?_, ?_⟩
  · intro v hb
    have hz : (match Value.asZeroable v.Interface with
        | some z => z
        | none => false) = (Value.asZeroable v.Interface == some true) := by
      cases Value.asZeroable v.Interface with
      | none => rfl
      | some z => cases z <;> rfl
    have hf : (v.toFloatBits % 2 ^ 63 == 0)
        = decide (v.toFloatBits = 0 ∨ v.toFloatBits = 2 ^ 63) := by
      rw [Bool.eq_iff_iff]
      simp only [beq_iff_eq, decide_eq_true_eq]
      omega
    unfold IsZero zeroReference
    cases hK : v.Kind <;> simp only [hz, hf] <;> rw [Bool.eq_iff_iff] <;> simp
  · intro e es
    simp [IsZero, Value.Kind, Value.Len]

theorem IsZero_eq_reference_witness :
    IsZero (.float (2 ^ 63)) = zeroReference (.float (2 ^ 63)) ∧
    zeroReference (.float (2 ^ 63)) = true :=
  ⟨IsZero_eq_reference.1 (.float (2 ^ 63)) (by decide), by decide⟩

theorem get_of_mem (sv : Values) (k : String) (vs : List String)
    (hnd : (sv.map Prod.fst).Nodup) (hm : (k, vs) ∈ sv) : sv.get k = some vs := by
  induction sv with
  | nil => cases hm
  | cons p rest ih =>
    obtain ⟨k0, vs0⟩ := p
    simp only [List.map_cons, List.nodup_cons] at hnd
    rcases List.mem_cons.mp hm with heq | hin
    · cases heq
      simp [Values.get]
    · have hne : k0 ≠ k := by
        intro hk
        have hx : k ∈ rest.map Prod.fst := List.mem_map_of_mem Prod.fst hin
        rw [← hk] at hx
        exact hnd.1 hx
      simp [Values.get, hne, ih hnd.2 hin]

theorem effKey_empty (k : String) : effKey "" k = k := by
  simp [effKey]

theorem get_Merge_top (sv : Values) (hnd : (sv.map Prod.fst).Nodup) (k : String) :
    ((MergeURLValues [] sv "").get k).getD [] = (sv.get k).getD [] ∧
    ((∀ kv ∈ sv, kv.2 ≠ []) → (MergeURLValues [] sv "").get k = sv.get k) := by
  by_cases hk : ∃ vs, (k, vs) ∈ sv
  · obtain ⟨vs, hm⟩ := hk
    have h := get_Merge_of_mem sv [] "" k vs hnd hm
    rw [effKey_empty] at h
    rw [h, get_of_mem sv k vs hnd hm]
    constructor
    · by_cases hvs : vs = [] <;> simp [hvs, Values.get]
    · intro hne
      have := hne (k, vs) hm
      simp [this, Values.get]
  · have hnot : ∀ kv ∈ sv, effKey "" kv.1 ≠ k := by
      intro kv hkv hkey
      rw [effKey_empty] at hkey
      exact hk ⟨kv.2, by rw [← hkey]; exact hkv⟩
    have hnone : sv.get k = none := by
      by_contra hsome
      have hmem := (mem_keys_iff_get sv k).mpr hsome
      simp only [Values.keys, List.mem_map] at hmem
      obtain ⟨kv, hkv, hkk⟩ := hmem
      exact hk ⟨kv.2, by rw [← hkk]; exact hkv⟩
    rw [get_Merge_of_not_mem sv [] "" k hnot, hnone]
    simp [Values.get]

theorem marshalAny_record (m : MarshalerOptions) (env : Env) (fuel : Nat) (out : Values)
    (val : Value) (s : String)
    (hk : val.Kind = .Struct)
    (hc : Value.asMarshaler val.Interface = none)
    (ht : Value.asTime val.Interface = none) :
    m.marshalAny env (fuel + 1) out val s
      = match env.queryValues val with
        | (_, some err) => .ret (out, some (.wrapped "marshal struct" err))
        | (structValues, none) =>
          .ret (MergeURLValues out (structValues.getD []) s, none) := by
  rw [MarshalerOptions.marshalAny]
  simp only [Value.IsValid, hk, hc, MarshalerOptions.marshalStruct, ht]
  rcases env.queryValues val with ⟨sv, e⟩
  cases e <;> simp [wrapErr]

/-- C15 fails on the code for a record held in an interface-typed sequence.
For a record that is neither a timestamp nor custom-encodable, the engine at
scope `s` returns the record encoder's error with the output unchanged, or else
an output in which every key `k` of the record encoder's collection has added,
under `k` (empty scope) or `s[k]`, its values after those that were there, and
every other key is as before; the result is the same under every
configuration; and for a non-zero top-level record `Marshal` returns a
collection that holds, under every key, the values that the record encoder's
collection holds there. But the same record as the element of a `[]any`
reaches the engine as `v.Index(i)`, of kind Interface: the record encoder is
not called and the record is added under the sequence's key as `fmt.Sprint`
prints it. -/
theorem record_delegation (m : MarshalerOptions) (env : Env) (fuel : Nat) (out : Values)
    (val : Value) (s : String)
    (hk : val.Kind = .Struct)
    (hc : Value.asMarshaler val.Interface = none)
    (ht : Value.asTime val.Interface = none) :
    (∀ sv err, env.queryValues val = (sv, some err) →
      m.marshalAny env (fuel + 1) out val s = .ret (out, some (.wrapped "marshal struct" err))) ∧
    (∀ sv, env.queryValues val = (some sv, none) → (sv.map Prod.fst).Nodup →
      ∃ out1 : Values,
        m.marshalAny env (fuel + 1) out val s = .ret (out1, none) ∧
        (∀ k vs, (k, vs) ∈ sv →
          out1.get (if s = "" then k else s ++ "[" ++ k ++ "]")
            = if vs = [] then out.get (if s = "" then k else s ++ "[" ++ k ++ "]")
              else some ((out.get (if s = "" then k else s ++ "[" ++ k ++ "]")).getD [] ++ vs)) ∧
        (∀ key, (∀ kv ∈ sv, (if s = "" then kv.1 else s ++ "[" ++ kv.1 ++ "]") ≠ key) →
          out1.get key = out.get key)) ∧
    (env.queryValues val = (none, none) →
      m.marshalAny env (fuel + 1) out val s = .ret (out, none)) ∧
    (∀ m1 : MarshalerOptions,
      m1.marshalAny env (fuel + 1) out val s = m.marshalAny env (fuel + 1) out val s) ∧
    (∀ sv, IsZero val = false → env.queryValues val = (some sv, none) →
      (sv.map Prod.fst).Nodup →
      ∃ out1 : Values,
        m.Marshal env (fuel + 1) (some val) = .ret (some out1, none) ∧
        (∀ k, (out1.get k).getD [] = (sv.get k).getD []) ∧
        ((∀ kv ∈ sv, kv.2 ≠ []) → ∀ k, out1.get k = sv.get k)) ∧
    (s ≠ "" →
      m.marshalAny env (fuel + 1) out (.iface val) s
        = .ret (out.Add s (sprintValue env val), none) ∧
      m.Marshal env (fuel + 3) (some (.map [(.str s, .iface (.slice [.iface val]))]))
        = .ret (some [(elementScope m s, [sprintValue env val])], none)) := by
  have hrun := fun (m0 : MarshalerOptions) (o : Values) (k : String) =>
    marshalAny_record m0 env fuel o val k hk hc ht
  have hkey : ∀ k : String, effKey s k = if s = "" then k else s ++ "[" ++ k ++ "]" := by
    intro k
    by_cases hs : s = "" <;> simp [effKey, hs]
  have hv : val.IsValid = true := by simp [Value.IsValid, hk]
  have hi : val.Interface = some val := Interface_eq_self val hv (by rw [hk]; decide)
  have hc1 : Value.asMarshaler (some val) = none := by rw [← hi]; exact hc
  refine ⟨?_, ?_, ?_, ?_, ?_, ?_⟩
  · intro sv err hq
    rw [hrun, hq]
  · intro sv hq hnd
    refine ⟨MergeURLValues out sv s, ?_, ?_, ?_⟩
    · rw [hrun, hq]
      rfl
    · intro k vs hm
      rw [← hkey k]
      exact get_Merge_of_mem sv out s k vs hnd hm
    · intro key h
      exact get_Merge_of_not_mem sv out s key (fun kv hkv => by rw [hkey]; exact h kv hkv)
  · intro hq
    rw [hrun, hq]
    rfl
  · intro m1
    rw [hrun, hrun]
  · intro sv hz hq hnd
    refine ⟨MergeURLValues [] sv "", ?_, fun k => (get_Merge_top sv hnd k).1,
      fun hne k => (get_Merge_top sv hnd k).2 hne⟩
    have hi : Indirect val = val := Indirect_of_not_ptr val (by rw [hk]; decide)
    simp only [MarshalerOptions.Marshal, hi, hz, hk, hrun, hq]
    rfl
  · intro hs
    exact ⟨marshalAny_iface m env fuel out val s hc1 hs,
      Marshal_boxed_element m env fuel s val hc1 hs⟩

theorem record_delegation_witness :
    (∃ out1 : Values,
      MarshalerOptions.marshalAny { ArrayBrackets := true, IntBool := true } sampleEnv 1
          [("o[int]", ["1"])] (.struct [("Int", .int 100)]) "o" = .ret (out1, none) ∧
      out1.get "o[int]" = some ["1", "100"] ∧ out1.get "o[slice]" = some ["1", "2"] ∧
      out1.get "o" = none) ∧
    Marshal sampleEnv 3 (some (.map [(.str "o", .iface (.slice [.iface (.struct [("Int", .int 100)])]))]))
      = .ret (some [("o", ["?"])], none) := by
  have h := record_delegation { ArrayBrackets := true, IntBool := true } sampleEnv 0
    [("o[int]", ["1"])] (.struct [("Int", .int 100)]) "o" rfl rfl rfl
  obtain ⟨out1, hrun, hmem, hnot⟩ := h.2.1 [("int", ["100"]), ("slice", ["1", "2"])] rfl (by decide)
  refine ⟨⟨out1, hrun, ?_, ?_, ?_⟩, ?_⟩
  · exact (hmem "int" ["100"] (by decide)).trans (by decide)
  · exact (hmem "slice" ["1", "2"] (by decide)).trans (by decide)
  · exact (hnot "o" (by decide)).trans (by decide)
  · exact ((record_delegation {} sampleEnv 0 [] (.struct [("Int", .int 100)]) "o" rfl rfl
      rfl).2.2.2.2.2 (by decide)).2

theorem forEach_append_of_ok {α : Type} (f : Values → α → Outcome) (pre rest : List α)
    (out out1 : Values) (h : forEach f pre out = .ret (out1, none)) :
    forEach f (pre ++ rest) out = forEach f rest out1 := by
  induction pre generalizing out with
  | nil =>
    simp only [forEach, Run.ret.injEq, Prod.mk.injEq, and_true] at h
    subst h
    rfl
  | cons a pre ih =>
    simp only [List.cons_append, forEach] at h ⊢
    cases hfa : f out a with
    | ret r =>
      obtain ⟨o, e⟩ := r
      cases e with
      | none =>
        rw [hfa] at h
        simp only at h ⊢
        exact ih o h
      | some err =>
        rw [hfa] at h
        simp at h
    | crash => rw [hfa] at h; simp at h
    | outOfFuel => rw [hfa] at h; simp at h

theorem forEach_fails_at {α : Type} (f : Values → α → Outcome) (pre post : List α) (x : α)
    (out out1 out2 : Values) (err : Error)
    (h : forEach f pre out = .ret (out1, none)) (hx : f out1 x = .ret (out2, some err)) :
    forEach f (pre ++ x :: post) out = .ret (out2, some err) := by
  rw [forEach_append_of_ok f pre (x :: post) out out1 h]
  simp [forEach, hx]

theorem engine_fails_of_reaches (m : MarshalerOptions) (env : Env) (n : Nat) (out : Values)
    (val : Value) (scope : String) (h : ReachesFailure m env n out val scope) :
    ∃ out2 err, m.marshalAny env n out val scope = .ret (out2, some err) := by
  induction h with
  | custom n out val scope enc err hc he =>
    refine ⟨(enc scope out).1, .wrapped "EncodeValues" err, ?_⟩
    rw [(custom_encoder_priority m env n out val scope enc hc).1, he]
    rfl
  | record n out val scope sv err hk hc ht hq =>
    refine ⟨out, .wrapped "marshal struct" err, ?_⟩
    rw [marshalAny_record m env n out val scope hk hc ht, hq]
  | inMapping n out val scope pre post k x out1 hk hc hsv hpre _ ih =>
    obtain ⟨out2, err, hx⟩ := ih
    refine ⟨out2, .wrapped "marshal map" err, ?_⟩
    rw [MarshalerOptions.marshalAny]
    simp only [Value.IsValid, hk, hc, MarshalerOptions.marshalMap, hsv]
    have := forEach_fails_at (fun o kv => m.marshalAny env n o kv.2
        (if scope ≠ "" then scope ++ "[" ++ kv.1 ++ "]" else kv.1)) pre post (k, x)
      out out1 out2 err hpre hx
    simp only [this]
    rfl
  | inSequence n out val scope pre post x out1 hk hc hd hsv hpre _ ih =>
    obtain ⟨out2, err, hx⟩ := ih
    refine ⟨out2, .wrapped "marshal slice" err, ?_⟩
    rw [marshalAny_sequence m env n out val scope hk hc]
    have := forEach_fails_at (fun o v => m.marshalAny env n o v (elementScope m scope))
      pre post x out out1 out2 err hpre hx
    simp only [elementScope] at this
    simp only [MarshalerOptions.marshalSlice, hd, if_true, hsv, this]
    rfl
  | inJoinedSequence n out val scope pre post x tmp1 hk hc hd hsv hpre _ ih =>
    obtain ⟨out2, err, hx⟩ := ih
    refine ⟨out, .wrapped "marshal slice" err, ?_⟩
    rw [marshalAny_sequence m env n out val scope hk hc]
    have := forEach_fails_at (fun o v => m.marshalAny env n o v (elementScope m scope))
      pre post x [] tmp1 out2 err hpre hx
    simp only [elementScope] at this
    simp only [MarshalerOptions.marshalSlice, hd, if_false, hsv, this]
    rfl
  | behindPointer n out val scope hk hc _ ih =>
    obtain ⟨out2, err, hx⟩ := ih
    refine ⟨out2, .wrapped "marshal pointer" err, ?_⟩
    rw [marshalAny_ptr m env n out val scope hk hc, hx]
    rfl

/-- C12: when the engine's run on a top-level mapping or record reaches a
custom-encodable value whose `EncodeValues` fails (inside mappings, sequences
in either array mode, behind pointers, at any depth), `Marshal` returns a
non-nil error and the nil collection: nothing written before the failure is
returned. -/
theorem error_propagation (m : MarshalerOptions) (env : Env) (n : Nat) (v : Value)
    (hz : IsZero (Indirect v) = false)
    (hk : (Indirect v).Kind = .Map ∨ (Indirect v).Kind = .Struct)
    (hf : ReachesFailure m env n [] (Indirect v) "") :
    ∃ err, m.Marshal env n (some v) = .ret (none, some err) := by
  obtain ⟨out2, err, hrun⟩ := engine_fails_of_reaches m env n [] (Indirect v) "" hf
  refine ⟨err, ?_⟩
  rcases hk with hk | hk <;> simp [MarshalerOptions.Marshal, hz, hk, hrun]

theorem error_propagation_witness :
    (∃ err, MarshalerOptions.Marshal {} sampleEnv 3
        (some (.map [(.str "a", .iface (.int 1)), (.str "s", .iface (.slice [failingValue]))]))
      = .ret (none, some err)) ∧
    MarshalerOptions.marshalAny {} sampleEnv 3 []
        (.map [(.str "a", .iface (.int 1)), (.str "s", .iface (.slice [failingValue]))]) ""
      = .ret ([("a", ["1"])],
          some (.wrapped "marshal map" (.wrapped "marshal slice"
            (.wrapped "EncodeValues" (.ext "invalid value: -10"))))) :=
  ⟨error_propagation {} sampleEnv 3
      (.map [(.str "a", .iface (.int 1)), (.str "s", .iface (.slice [failingValue]))])
      (by decide) (Or.inl rfl)
      (ReachesFailure.inMapping 2 [] _ "" [("a", .int 1)] [] "s" (.slice [failingValue])
        [("a", ["1"])] rfl rfl rfl (by decide)
        (ReachesFailure.inSequence 1 [("a", ["1"])] (.slice [failingValue]) "s" [] []
          failingValue [("a", ["1"])] (Or.inr rfl) rfl rfl rfl rfl
          (ReachesFailure.custom 0 [("a", ["1"])] failingValue "s"
            (fun _ o => (o, some (.ext "invalid value: -10"))) (.ext "invalid value: -10")
            rfl rfl))),
   by decide⟩

theorem leavesEntries_eq_flatMap (b : Bool) (s : String) (es : List (String × Tree)) :
    leavesEntries b s es
      = es.flatMap (fun p => p.2.leaves b (if s = "" then p.1 else s ++ "[" ++ p.1 ++ "]")) := by
  induction es with
  | nil => rfl
  | cons p rest ih =>
    obtain ⟨k, t⟩ := p
    simp [leavesEntries, ih]

theorem leavesEntries_perm (b : Bool) (s : String) (l1 l2 : List (String × Tree))
    (h : l1.Perm l2) : (leavesEntries b s l1).Perm (leavesEntries b s l2) := by
  rw [leavesEntries_eq_flatMap, leavesEntries_eq_flatMap]
  exact List.Perm.flatMap_right _ h

mutual
theorem leaves_reorder_perm (σ : List (String × Tree) → List (String × Tree))
    (hσ : ∀ l, (σ l).Perm l) (b : Bool) :
    ∀ (t : Tree) (s : String), ((t.reorder σ).leaves b s).Perm (t.leaves b s)
  | .leaf v, s => by simp [Tree.reorder, Tree.leaves]
  | .mapping boxed es, s => by
    simp only [Tree.reorder, Tree.leaves]
    exact (leavesEntries_perm b s _ _ (hσ _)).trans (leavesEntries_reorder_perm σ hσ b es s)
  | .sequence fixed es, s => by
    simp only [Tree.reorder, Tree.leaves]
    exact leavesElems_reorder_perm σ hσ b es _
theorem leavesEntries_reorder_perm (σ : List (String × Tree) → List (String × Tree))
    (hσ : ∀ l, (σ l).Perm l) (b : Bool) :
    ∀ (es : List (String × Tree)) (s : String),
      (leavesEntries b s (reorderEntries σ es)).Perm (leavesEntries b s es)
  | [], s => by simp [reorderEntries, leavesEntries]
  | (k, t) :: rest, s => by
    simp only [reorderEntries, leavesEntries]
    exact (leaves_reorder_perm σ hσ b t _).append (leavesEntries_reorder_perm σ hσ b rest s)
theorem leavesElems_reorder_perm (σ : List (String × Tree) → List (String × Tree))
    (hσ : ∀ l, (σ l).Perm l) (b : Bool) :
    ∀ (es : List Tree) (s : String),
      (leavesElems b s (reorderElems σ es)).Perm (leavesElems b s es)
  | [], s => by simp [reorderElems, leavesElems]
  | t :: rest, s => by
    simp only [reorderElems, leavesElems]
    exact (leaves_reorder_perm σ hσ b t s).append (leavesElems_reorder_perm σ hσ b rest s)
end

theorem wfEntries_iff (boxed : Bool) (l : List (String × Tree)) :
    wfEntries boxed l = true ↔
      ∀ p ∈ l, p.2.wf = true ∧ (boxed || p.2.toValue.Kind != .Interface) = true := by
  induction l with
  | nil => simp [wfEntries]
  | cons p rest ih =>
    obtain ⟨k, t⟩ := p
    simp only [wfEntries, Bool.and_eq_true, ih, List.mem_cons, forall_eq_or_imp]

theorem reorderEntries_keys (σ : List (String × Tree) → List (String × Tree))
    (es : List (String × Tree)) : (reorderEntries σ es).map Prod.fst = es.map Prod.fst := by
  induction es with
  | nil => rfl
  | cons p rest ih =>
    obtain ⟨k, t⟩ := p
    simp [reorderEntries, ih]

theorem reorder_kind (σ : List (String × Tree) → List (String × Tree)) (t : Tree) :
    (t.reorder σ).toValue.Kind = t.toValue.Kind := by
  cases t with
  | leaf v => rfl
  | mapping boxed es => rfl
  | sequence fixed es => cases fixed <;> rfl

mutual
theorem wf_reorder (σ : List (String × Tree) → List (String × Tree))
    (hσ : ∀ l, (σ l).Perm l) :
    ∀ t : Tree, t.wf = true → (t.reorder σ).wf = true
  | .leaf v, h => by simpa [Tree.reorder] using h
  | .mapping boxed es, h => by
    simp only [Tree.wf, Bool.and_eq_true, decide_eq_true_eq] at h
    simp only [Tree.reorder, Tree.wf, Bool.and_eq_true, decide_eq_true_eq]
    have hp := hσ (reorderEntries σ es)
    constructor
    · have hk := (hp.map Prod.fst).nodup_iff
      rw [reorderEntries_keys] at hk
      exact hk.mpr h.1
    · have hw := wfEntries_reorder σ hσ boxed es h.2
      rw [wfEntries_iff] at hw ⊢
      intro p hpm
      exact hw p (hp.mem_iff.mp hpm)
  | .sequence fixed es, h => by
    simp only [Tree.wf] at h
    simp only [Tree.reorder, Tree.wf]
    exact wfElems_reorder σ hσ es h
theorem wfEntries_reorder (σ : List (String × Tree) → List (String × Tree))
    (hσ : ∀ l, (σ l).Perm l) (boxed : Bool) :
    ∀ es : List (String × Tree), wfEntries boxed es = true →
      wfEntries boxed (reorderEntries σ es) = true
  | [], _ => by simp [reorderEntries, wfEntries]
  | (k, t) :: rest, h => by
    simp only [wfEntries, Bool.and_eq_true] at h
    simp only [reorderEntries, wfEntries, Bool.and_eq_true, reorder_kind]
    exact ⟨⟨wf_reorder σ hσ t h.1.1, h.1.2⟩, wfEntries_reorder σ hσ boxed rest h.2⟩
theorem wfElems_reorder (σ : List (String × Tree) → List (String × Tree))
    (hσ : ∀ l, (σ l).Perm l) :
    ∀ es : List Tree, wfElems es = true → wfElems (reorderElems σ es) = true
  | [], _ => by simp [reorderElems, wfElems]
  | t :: rest, h => by
    simp only [wfElems, Bool.and_eq_true] at h
    simp only [reorderElems, wfElems, Bool.and_eq_true]
    exact ⟨wf_reorder σ hσ t h.1, wfElems_reorder σ hσ rest h.2⟩
end

theorem filter_key_eq_nil_iff (ls : List (String × Value)) (k : String) :
    ls.filter (fun p => p.1 = k) = [] ↔ k ∉ ls.map Prod.fst := by
  rw [List.filter_eq_nil_iff]
  constructor
  · intro h hk
    obtain ⟨p, hp, hpk⟩ := List.mem_map.mp hk
    exact h p hp (by simpa using hpk)
  · intro h p hp hpk
    exact h (List.mem_map.mpr ⟨p, hp, by simpa using hpk⟩)

theorem get_emitLeaves_nil (m : MarshalerOptions) (env : Env) (ls : List (String × Value))
    (k : String) :
    (emitLeaves m env [] ls).get k
      = if k = "" ∨ (ls.filter (fun p => p.1 = k)).map (fun p => leafText m env p.2) = []
        then none
        else some ((ls.filter (fun p => p.1 = k)).map (fun p => leafText m env p.2)) := by
  by_cases hk : k = ""
  · subst hk
    rw [get_emitLeaves_empty_key]
    simp [Values.get]
  · rw [get_emitLeaves m env k hk]
    by_cases ht : (ls.filter (fun p => p.1 = k)).map (fun p => leafText m env p.2) = []
    · simp [ht, hk, Values.get]
    · simp [ht, hk, Values.get]

theorem disjointEntries_symm (b : Bool) (s : String) {p q : String × Tree}
    (h : disjointEntries b s p q) : disjointEntries b s q p :=
  fun x hxq hxp => h x hxp hxq

theorem filter_leavesEntries_perm (b : Bool) (s k : String) (l1 l2 : List (String × Tree))
    (hp : l1.Perm l2) (hpw : l1.Pairwise (disjointEntries b s)) :
    (leavesEntries b s l1).filter (fun p => p.1 = k)
      = (leavesEntries b s l2).filter (fun p => p.1 = k) := by
  induction hp with
  | nil => rfl
  | cons x _ ih =>
    obtain ⟨kx, tx⟩ := x
    simp only [leavesEntries, List.filter_append]
    rw [ih (List.Pairwise.of_cons hpw)]
  | swap x y l =>
    obtain ⟨kx, tx⟩ := x
    obtain ⟨ky, ty⟩ := y
    simp only [leavesEntries, List.filter_append]
    have hd : disjointEntries b s (ky, ty) (kx, tx) := by
      have := List.pairwise_cons.mp hpw
      exact this.1 (kx, tx) (List.mem_cons_self _ _)
    by_cases hy : k ∈ entryPaths b s (ky, ty)
    · have hx : k ∉ entryPaths b s (kx, tx) := hd k hy
      have hxe := (filter_key_eq_nil_iff _ k).mpr hx
      simp only [entryPaths] at hxe
      simp only [hxe, List.nil_append, List.append_nil]
    · have hye := (filter_key_eq_nil_iff _ k).mpr hy
      simp only [entryPaths] at hye
      simp only [hye, List.nil_append, List.append_nil]
  | trans h12 _ ih1 ih2 =>
    have hpw2 := (h12.pairwise_iff (fun h => disjointEntries_symm b s h)).mp hpw
    rw [ih1 hpw, ih2 hpw2]

theorem reorderEntries_eq_map (σ : List (String × Tree) → List (String × Tree))
    (es : List (String × Tree)) :
    reorderEntries σ es = es.map (fun p => (p.1, p.2.reorder σ)) := by
  induction es with
  | nil => rfl
  | cons p rest ih =>
    obtain ⟨k, t⟩ := p
    simp [reorderEntries, ih]

theorem entryPaths_reorder (σ : List (String × Tree) → List (String × Tree))
    (hσ : ∀ l, (σ l).Perm l) (b : Bool) (s : String) (p : String × Tree) (x : String) :
    x ∈ entryPaths b s (p.1, p.2.reorder σ) ↔ x ∈ entryPaths b s p := by
  simp only [entryPaths]
  exact ((leaves_reorder_perm σ hσ b p.2 _).map Prod.fst).mem_iff

theorem pairwise_reorderEntries (σ : List (String × Tree) → List (String × Tree))
    (hσ : ∀ l, (σ l).Perm l) (b : Bool) (s : String) (es : List (String × Tree))
    (h : es.Pairwise (disjointEntries b s)) :
    (reorderEntries σ es).Pairwise (disjointEntries b s) := by
  rw [reorderEntries_eq_map, List.pairwise_map]
  refine h.imp ?_
  intro p q hpq x hx hxq
  exact hpq x ((entryPaths_reorder σ hσ b s p x).mp hx) ((entryPaths_reorder σ hσ b s q x).mp hxq)

mutual
theorem filter_leaves_reorder (σ : List (String × Tree) → List (String × Tree))
    (hσ : ∀ l, (σ l).Perm l) (b : Bool) (k : String) :
    ∀ (t : Tree) (s : String), t.separated b s →
      ((t.reorder σ).leaves b s).filter (fun p => p.1 = k)
        = (t.leaves b s).filter (fun p => p.1 = k)
  | .leaf v, s, _ => by simp [Tree.reorder]
  | .mapping boxed es, s, h => by
    simp only [Tree.separated] at h
    simp only [Tree.reorder, Tree.leaves]
    have hp := hσ (reorderEntries σ es)
    have hpw := pairwise_reorderEntries σ hσ b s es h.1
    have hpw2 := (hp.pairwise_iff (fun h => disjointEntries_symm b s h)).mpr hpw
    rw [filter_leavesEntries_perm b s k _ _ hp hpw2]
    exact filter_leavesEntries_reorder σ hσ b k es s h.2
  | .sequence fixed es, s, h => by
    simp only [Tree.separated] at h
    simp only [Tree.reorder, Tree.leaves]
    exact filter_leavesElems_reorder σ hσ b k es _ h
theorem filter_leavesEntries_reorder (σ : List (String × Tree) → List (String × Tree))
    (hσ : ∀ l, (σ l).Perm l) (b : Bool) (k : String) :
    ∀ (es : List (String × Tree)) (s : String), separatedEntries b s es →
      (leavesEntries b s (reorderEntries σ es)).filter (fun p => p.1 = k)
        = (leavesEntries b s es).filter (fun p => p.1 = k)
  | [], s, _ => by simp [reorderEntries]
  | (k1, t) :: rest, s, h => by
    simp only [separatedEntries] at h
    simp only [reorderEntries, leavesEntries, List.filter_append]
    rw [filter_leaves_reorder σ hσ b k t _ h.1, filter_leavesEntries_reorder σ hσ b k rest s h.2]
theorem filter_leavesElems_reorder (σ : List (String × Tree) → List (String × Tree))
    (hσ : ∀ l, (σ l).Perm l) (b : Bool) (k : String) :
    ∀ (es : List Tree) (s : String), separatedElems b s es →
      (leavesElems b s (reorderElems σ es)).filter (fun p => p.1 = k)
        = (leavesElems b s es).filter (fun p => p.1 = k)
  | [], s, _ => by simp [reorderElems]
  | t :: rest, s, h => by
    simp only [separatedElems] at h
    simp only [reorderElems, leavesElems, List.filter_append]
    rw [filter_leaves_reorder σ hσ b k t s h.1, filter_leavesElems_reorder σ hσ b k rest s h.2]
end

theorem Marshal_mapping (m : MarshalerOptions) (env : Env) (boxed : Bool)
    (es : List (String × Tree)) (fuel : Nat)
    (hd : m.ArrayDelimiter = "") (hw : (Tree.mapping boxed es).wf = true) (hne : es ≠ [])
    (hf : (Tree.mapping boxed es).depth ≤ fuel) :
    m.Marshal env fuel (some (Tree.mapping boxed es).toValue)
      = .ret (some (emitLeaves m env [] ((Tree.mapping boxed es).leaves m.ArrayBrackets "")),
          none) := by
  have hz : IsZero (Tree.mapping boxed es).toValue = false := by
    cases es with
    | nil => exact absurd rfl hne
    | cons p rest =>
      obtain ⟨k, t⟩ := p
      simp [IsZero, Tree.toValue, Value.Kind, Value.Len, entriesToValue]
  have hi : Indirect (Tree.mapping boxed es).toValue = (Tree.mapping boxed es).toValue := rfl
  have h := engine_on_tree m env hd (Tree.mapping boxed es) fuel [] "" hw hf
  simp only [MarshalerOptions.Marshal, hi, hz]
  simp only [Tree.toValue] at h
  simp [Tree.toValue, Value.Kind, h]

theorem lookup_perm_aux (k : String) (T1 T2 : List String) (hp : T2.Perm T1) :
    ((if k = "" ∨ T2 = [] then none else some T2) ≠ none
        ↔ (if k = "" ∨ T1 = [] then none else some T1) ≠ none) ∧
    (((if k = "" ∨ T2 = [] then none else some T2) : Option (List String)).getD []).Perm
      (((if k = "" ∨ T1 = [] then none else some T1) : Option (List String)).getD []) := by
  have hnil : T2 = [] ↔ T1 = [] := by
    constructor
    · intro h
      subst h
      exact hp.nil_eq.symm
    · intro h
      subst h
      exact hp.eq_nil
  by_cases hk : k = ""
  · simp [hk]
  · by_cases h1 : T1 = []
    · have h2 : T2 = [] := hnil.mpr h1
      simp [hk, h1, h2]
    · have h2 : ¬ T2 = [] := fun h => h1 (hnil.mp h)
      simp [hk, h1, h2, hp]

/-- C16, as stated, fails. The mapping `{"a": {"b": 1}, "a[b]": 2}` gives the
values `1, 2` under `a[b]` when its entries are visited in one order and `2, 1`
when they are visited in the other; and of two entries whose custom encoders
fail, the one visited first decides which failure `Marshal` returns. -/
theorem iteration_order_counterexample :
    MarshalerOptions.Marshal {} sampleEnv 3 (some collidingTree.toValue)
      = .ret (some [("a[b]", ["1", "2"])], none) ∧
    MarshalerOptions.Marshal {} sampleEnv 3 (some (collidingTree.reorder List.reverse).toValue)
      = .ret (some [("a[b]", ["2", "1"])], none) ∧
    MarshalerOptions.Marshal {} sampleEnv 2
        (some (.map
          [(.str "x", .iface (.defined { encodeValues := some (fun _ o => (o, some (.ext "first"))) }
              (.int 1))),
           (.str "y", .iface (.defined { encodeValues := some (fun _ o => (o, some (.ext "second"))) }
              (.int 2)))]))
      = .ret (none, some (.wrapped "marshal map" (.wrapped "EncodeValues" (.ext "first")))) ∧
    MarshalerOptions.Marshal {} sampleEnv 2
        (some (.map
          [(.str "y", .iface (.defined { encodeValues := some (fun _ o => (o, some (.ext "second"))) }
              (.int 2))),
           (.str "x", .iface (.defined { encodeValues := some (fun _ o => (o, some (.ext "first"))) }
              (.int 1)))]))
      = .ret (none, some (.wrapped "marshal map" (.wrapped "EncodeValues" (.ext "second")))) := by
  refine ⟨by decide, by decide, by decide, by decide⟩

/-- C16, amended: for a non-empty top-level mapping built from nested
string-keyed mappings, sequences and primitive or timestamp leaves, with
`ArrayDelimiter` empty, `Marshal` returns a collection for every order in which
the entries of the mappings (at every depth) are visited; the keys are the same
for every order, and so are the values under each key up to their order. When
no two different entries of a mapping compose to a common key, the collection
is the same for every order, the order of the values under each key included. -/
theorem iteration_order (m : MarshalerOptions) (env : Env)
    (σ : List (String × Tree) → List (String × Tree)) (boxed : Bool)
    (es : List (String × Tree))
    (hσ : ∀ l, (σ l).Perm l) (hd : m.ArrayDelimiter = "")
    (hw : (Tree.mapping boxed es).wf = true) (hne : es ≠ []) :
    ∃ out1 out2 : Values,
      (∀ fuel, (Tree.mapping boxed es).depth ≤ fuel →
        m.Marshal env fuel (some (Tree.mapping boxed es).toValue) = .ret (some out1, none)) ∧
      (∀ fuel, ((Tree.mapping boxed es).reorder σ).depth ≤ fuel →
        m.Marshal env fuel (some ((Tree.mapping boxed es).reorder σ).toValue)
          = .ret (some out2, none)) ∧
      (∀ k, k ∈ out2.keys ↔ k ∈ out1.keys) ∧
      (∀ k, ((out2.get k).getD []).Perm ((out1.get k).getD [])) ∧
      ((Tree.mapping boxed es).separated m.ArrayBrackets "" → ∀ k, out2.get k = out1.get k) := by
  have hne2 : σ (reorderEntries σ es) ≠ [] := by
    intro h0
    have hl := (hσ (reorderEntries σ es)).length_eq
    rw [h0, reorderEntries_eq_map] at hl
    cases es with
    | nil => exact hne rfl
    | cons p rest => simp at hl
  have hw2 : (Tree.mapping boxed (σ (reorderEntries σ es))).wf = true :=
    wf_reorder σ hσ (Tree.mapping boxed es) hw
  have hperm := leaves_reorder_perm σ hσ m.ArrayBrackets (Tree.mapping boxed es) ""
  have htexts : ∀ k : String,
      ((((Tree.mapping boxed es).reorder σ).leaves m.ArrayBrackets "").filter
          (fun p => p.1 = k)).map (fun p => leafText m env p.2) |>.Perm
        ((((Tree.mapping boxed es).leaves m.ArrayBrackets "").filter
          (fun p => p.1 = k)).map (fun p => leafText m env p.2)) :=
    fun k => (hperm.filter _).map _
  refine ⟨emitLeaves m env [] ((Tree.mapping boxed es).leaves m.ArrayBrackets ""),
    emitLeaves m env [] (((Tree.mapping boxed es).reorder σ).leaves m.ArrayBrackets ""),
    fun fuel hf => Marshal_mapping m env boxed es fuel hd hw hne hf,
    fun fuel hf => Marshal_mapping m env boxed _ fuel hd hw2 hne2 hf, ?_, ?_, ?_⟩
  · intro k
    rw [mem_keys_iff_get, mem_keys_iff_get, get_emitLeaves_nil, get_emitLeaves_nil]
    exact (lookup_perm_aux k _ _ (htexts k)).1
  · intro k
    rw [get_emitLeaves_nil, get_emitLeaves_nil]
    exact (lookup_perm_aux k _ _ (htexts k)).2
  · intro hsep k
    rw [get_emitLeaves_nil, get_emitLeaves_nil,
      filter_leaves_reorder σ hσ m.ArrayBrackets k (Tree.mapping boxed es) "" hsep]

theorem iteration_order_witness :
    ∃ out1 out2 : Values,
      MarshalerOptions.Marshal {} sampleEnv 4 (some exampleTree.toValue) = .ret (some out1, none) ∧
      MarshalerOptions.Marshal {} sampleEnv 4 (some (exampleTree.reorder List.reverse).toValue)
        = .ret (some out2, none) ∧
      (∀ k, k ∈ out2.keys ↔ k ∈ out1.keys) ∧
      out1 = [("int", ["1"]), ("map[slice]", ["100", "200"]), ("map[int]", ["1"])] ∧
      out2 = [("map[int]", ["1"]), ("map[slice]", ["100", "200"]), ("int", ["1"])] := by
  obtain ⟨out1, out2, h1, h2, hk, _, _⟩ :=
    iteration_order {} sampleEnv List.reverse true
      [("int", .leaf (.int 1)),
       ("map", .mapping true
          [("slice", .sequence false [.leaf (.str "100"), .leaf (.str "200")]),
           ("int", .leaf (.int 1))])]
      (fun l => List.reverse_perm l) rfl (by decide) (List.cons_ne_nil _ _)
  have e1 := h1 4 (by decide)
  have e2 := h2 4 (by decide)
  have d1 : MarshalerOptions.Marshal {} sampleEnv 4 (some exampleTree.toValue)
      = .ret (some [("int", ["1"]), ("map[slice]", ["100", "200"]), ("map[int]", ["1"])], none) := by
    decide
  have d2 : MarshalerOptions.Marshal {} sampleEnv 4
      (some (exampleTree.reorder List.reverse).toValue)
      = .ret (some [("map[int]", ["1"]), ("map[slice]", ["100", "200"]), ("int", ["1"])], none) := by
    decide
  refine ⟨out1, out2, e1, e2, hk, ?_, ?_⟩
  · have := e1.symm.trans d1
    simpa using this
  · have := e2.symm.trans d2
    simpa using this

theorem forEach_keeps_key {α : Type} (f : Values → α → Outcome) (key : String)
    (es : List α) (tmp : Values)
    (h : ∀ e ∈ es, ∀ t : Values, ∃ t1, f t e = .ret (t1, none) ∧ t1.get key = t.get key) :
    ∃ tmp1, forEach f es tmp = .ret (tmp1, none) ∧ tmp1.get key = tmp.get key := by
  induction es generalizing tmp with
  | nil => exact ⟨tmp, rfl, rfl⟩
  | cons e es ih =>
    obtain ⟨t1, hrun, hget⟩ := h e (List.mem_cons_self _ _) tmp
    obtain ⟨t2, hrest, hget2⟩ := ih t1 (fun x hx => h x (List.mem_cons_of_mem _ hx))
    refine ⟨t2, ?_, hget2.trans hget⟩
    simp only [forEach, hrun]
    exact hrest

theorem child_scope_ne (scope k : String) (hk : k ≠ "") :
    (if scope ≠ "" then scope ++ "[" ++ k ++ "]" else k) ≠ scope := by
  by_cases hs : scope = ""
  · subst hs
    simpa using hk
  · simp only [ne_eq, hs, not_false_eq_true, if_true]
    intro h
    have := congrArg String.length h
    simp only [String.length_append] at this
    have h1 : "[".length = 1 := by decide
    have h2 : "]".length = 1 := by decide
    omega

theorem get_emitLeaves_single_of_ne (m : MarshalerOptions) (env : Env) (out : Values)
    (key scope : String) (v : Value) (h : key ≠ scope) :
    (emitLeaves m env out [(key, v)]).get scope = out.get scope := by
  by_cases hk : key = ""
  · simp [emitLeaves, hk]
  · simp only [emitLeaves, List.foldl_cons, List.foldl_nil, hk, if_false]
    exact get_Add_of_ne _ _ _ _ (Ne.symm h)

theorem mapping_of_leaves_writes_elsewhere (m : MarshalerOptions) (env : Env) (n : Nat)
    (tmp : Values) (boxed : Bool) (es : List (String × Tree)) (scope : String)
    (hw : (Tree.mapping boxed es).wf = true)
    (hl : ∀ p ∈ es, p.1 ≠ "" ∧ ∃ v, p.2 = .leaf v) :
    ∃ tmp1, m.marshalAny env (n + 2) tmp (Tree.mapping boxed es).toValue scope
        = .ret (tmp1, none) ∧
      tmp1.get scope = tmp.get scope := by
  rw [marshalAny_mapping m env (n + 1) tmp boxed es scope hw]
  simp only [Tree.wf, Bool.and_eq_true] at hw
  have hwe := (wfEntries_iff boxed es).mp hw.2
  have hall : ∀ kv ∈ es.map (fun p => (p.1, p.2.toValue)), ∀ t : Values,
      ∃ t1, (fun o (kv : String × Value) => m.marshalAny env (n + 1) o kv.2
            (if scope ≠ "" then scope ++ "[" ++ kv.1 ++ "]" else kv.1)) t kv = .ret (t1, none) ∧
        t1.get scope = t.get scope := by
    intro kv hkv t
    obtain ⟨p, hp, rfl⟩ := List.mem_map.mp hkv
    obtain ⟨hk, v, hv⟩ := hl p hp
    have hleaf : isLeaf v = true := by
      have := (hwe p hp).1
      rw [hv] at this
      simpa [Tree.wf] using this
    refine ⟨emitLeaves m env t
      [((if scope ≠ "" then scope ++ "[" ++ p.1 ++ "]" else p.1), v)], ?_, ?_⟩
    · simp only [hv, Tree.toValue]
      exact marshalAny_leaf m env n t v _ hleaf
    · exact get_emitLeaves_single_of_ne m env t _ scope v (child_scope_ne scope p.1 hk)
  obtain ⟨tmp1, hrun, hget⟩ := forEach_keeps_key _ scope _ tmp hall
  exact ⟨tmp1, by rw [hrun]; rfl, hget⟩

/-- C21: with a non-empty `ArrayDelimiter`, at every scope, when every element
of a sequence is encoded without error and leaves the element scope's entry of
the collection it writes to as it was (it writes only under other keys, as a
mapping with non-empty keys and primitive values does), the engine returns no
error and leaves the output collection unchanged: what the elements wrote is
dropped with the temporary collection. -/
theorem delimiter_discards_composites (m : MarshalerOptions) (env : Env) (n : Nat)
    (out : Values) (val : Value) (s : String)
    (hd : m.ArrayDelimiter ≠ "")
    (hk : val.Kind = .Array ∨ val.Kind = .Slice)
    (hc : Value.asMarshaler val.Interface = none)
    (he : ∀ e ∈ val.Elems, ∀ tmp : Values,
      ∃ tmp1, m.marshalAny env n tmp e (if m.ArrayBrackets then s ++ "[]" else s)
          = .ret (tmp1, none) ∧
        tmp1.get (if m.ArrayBrackets then s ++ "[]" else s)
          = tmp.get (if m.ArrayBrackets then s ++ "[]" else s)) :
    m.marshalAny env (n + 1) out val s = .ret (out, none) := by
  rw [marshalAny_sequence m env n out val s hk hc]
  obtain ⟨tmp1, hrun, hget⟩ :=
    forEach_keeps_key (fun o v => m.marshalAny env n o v (if m.ArrayBrackets then s ++ "[]" else s))
      (if m.ArrayBrackets then s ++ "[]" else s) val.Elems [] he
  have hnone : tmp1.get (if m.ArrayBrackets then s ++ "[]" else s) = none := by
    rw [hget]
    rfl
  simp only [MarshalerOptions.marshalSlice, hd, if_false, SliceValues, hrun, hnone]
  rfl

theorem delimiter_discards_composites_witness :
    MarshalerOptions.marshalAny { ArrayDelimiter := "|" } sampleEnv 3 [("x", ["0"])]
        (.slice [(Tree.mapping true [("a", .leaf (.int 1))]).toValue,
                 (Tree.mapping true [("b", .leaf (.int 2)), ("c", .leaf (.bool true))]).toValue])
        "s"
      = .ret ([("x", ["0"])], none) ∧
    MarshalerOptions.marshalAny { ArrayDelimiter := "|" } sampleEnv 2 []
        (Tree.mapping true [("a", .leaf (.int 1))]).toValue "s"
      = .ret ([("s[a]", ["1"])], none) :=
  ⟨delimiter_discards_composites { ArrayDelimiter := "|" } sampleEnv 2 [("x", ["0"])]
      (.slice [(Tree.mapping true [("a", .leaf (.int 1))]).toValue,
               (Tree.mapping true [("b", .leaf (.int 2)), ("c", .leaf (.bool true))]).toValue])
      "s" (by decide) (Or.inr rfl) rfl
      (by
        intro e he tmp
        simp only [Value.Elems, List.mem_cons, List.mem_singleton, List.not_mem_nil,
          or_false] at he
        rcases he with rfl | rfl
        · exact mapping_of_leaves_writes_elsewhere _ sampleEnv 0 tmp true _ "s" (by decide)
            (by simp)
        · exact mapping_of_leaves_writes_elsewhere _ sampleEnv 0 tmp true _ "s" (by decide)
            (by simp)),
   by decide⟩

/-! ## Descent over plain data with pointers and sequences of interface values -/

theorem addPairs_append (out : Values) (l1 l2 : List (String × String)) :
    addPairs out (l1 ++ l2) = addPairs (addPairs out l1) l2 := by
  simp [addPairs, List.foldl_append]

theorem get_addPairs (ps : List (String × String)) (out : Values) (k : String) :
    (addPairs out ps).get k
      = if textsUnder ps k = [] then out.get k
        else some ((out.get k).getD [] ++ textsUnder ps k) := by
  induction ps generalizing out with
  | nil => simp [addPairs, textsUnder]
  | cons p ps ih =>
    have h2 : addPairs out (p :: ps) = addPairs (out.Add p.1 p.2) ps := rfl
    by_cases hpk : p.1 = k
    · have hf : textsUnder (p :: ps) k = p.2 :: textsUnder ps k := by
        simp [textsUnder, List.filter_cons, hpk]
      rw [h2, ih, hf, hpk, get_Add_self]
      by_cases hr : textsUnder ps k = [] <;> simp [hr]
    · have hf : textsUnder (p :: ps) k = textsUnder ps k := by
        simp [textsUnder, List.filter_cons, hpk]
      rw [h2, ih, hf, get_Add_of_ne _ _ _ _ (Ne.symm hpk)]

theorem textsUnder_ne_nil_iff (ps : List (String × String)) (k : String) :
    textsUnder ps k ≠ [] ↔ k ∈ ps.map Prod.fst := by
  simp only [textsUnder, ne_eq, List.map_eq_nil_iff, List.mem_map, Prod.exists,
    exists_and_right, exists_eq_right]
  rw [List.filter_eq_nil_iff]
  constructor
  · intro h
    by_contra hno
    apply h
    intro p hp hpk
    obtain ⟨p1, p2⟩ := p
    have hk1 : p1 = k := by simpa using hpk
    exact hno ⟨p2, hk1 ▸ hp⟩
  · rintro ⟨v, hv⟩ h
    exact h (k, v) hv (by simp)

theorem plain_toValue_facts (env : Env) (t : Plain) (hw : t.wf env = true) :
    t.toValue.IsValid = true ∧ t.toValue.Kind ≠ .Interface ∧
      Value.asMarshaler (some t.toValue) = none := by
  cases t with
  | leaf v =>
    simp only [Plain.wf, Bool.and_eq_true, bne_iff_ne, ne_eq] at hw
    obtain ⟨hl, hk⟩ := hw
    have hv := isLeaf_valid v hl
    refine ⟨hv, hk, ?_⟩
    have hb : (∃ t, v = .time t) ∨ isBasic v = true := by
      cases v <;> first | exact Or.inl ⟨_, rfl⟩ | exact Or.inr hl
    rcases hb with ⟨t, rfl⟩ | hb
    · rfl
    · simp only [isBasic, Bool.and_eq_true, Option.isNone_iff_eq_none] at hb
      have hi := Interface_eq_self v hv hk
      simp only [Plain.toValue]
      rw [← hi]
      exact hb.1.2
  | mapping boxed es => exact ⟨rfl, by simp [Plain.toValue, Value.Kind], rfl⟩
  | sequence fixed boxed es =>
    cases fixed <;> exact ⟨rfl, by simp [Plain.toValue, Value.Kind], rfl⟩
  | pointer t => exact ⟨rfl, by simp [Plain.toValue, Value.Kind], rfl⟩

theorem plain_Interface_slot (env : Env) (boxed : Bool) (t : Plain) (hw : t.wf env = true) :
    (slot boxed t.toValue).Interface = some t.toValue :=
  Interface_slot boxed t.toValue (plain_toValue_facts env t hw).1
    (plain_toValue_facts env t hw).2.1

theorem plain_StringValueMap_fold (env : Env) (boxed : Bool) (es : List (Value × Plain))
    (acc : List (String × Value))
    (hw : Plain.wfEntries env es = true)
    (hnd : (es.map (fun p => ValueString env p.1)).Nodup)
    (hdis : ∀ k ∈ es.map (fun p => ValueString env p.1), k ∉ acc.map Prod.fst) :
    (Plain.entriesToValue boxed es).foldl
        (fun out kv =>
          match kv.2.Interface with
          | none => out
          | some mv => setEntry out (ValueString env kv.1) mv)
        acc
      = acc ++ es.map (fun p => (ValueString env p.1, p.2.toValue)) := by
  induction es generalizing acc with
  | nil => simp [Plain.entriesToValue]
  | cons p rest ih =>
    obtain ⟨k, t⟩ := p
    simp only [Plain.wfEntries, Bool.and_eq_true] at hw
    obtain ⟨hwt, hwr⟩ := hw
    simp only [List.map_cons, List.nodup_cons] at hnd
    have hk : ValueString env k ∉ acc.map Prod.fst := hdis _ (by simp)
    simp only [Plain.entriesToValue, List.foldl_cons, plain_Interface_slot env boxed t hwt,
      setEntry_of_not_mem acc _ _ hk]
    rw [ih _ hwr hnd.2]
    · simp
    · intro k1 hk1
      simp only [List.map_append, List.map_cons, List.map_nil, List.mem_append,
        List.mem_singleton, not_or]
      refine ⟨hdis k1 (by simp only [List.map_cons, List.mem_cons]; exact Or.inr hk1), ?_⟩
      rintro rfl
      exact hnd.1 hk1

theorem plain_StringValueMap_mapping (env : Env) (boxed : Bool) (es : List (Value × Plain))
    (hw : (Plain.mapping boxed es).wf env = true) :
    StringValueMap env (Plain.mapping boxed es).toValue
      = es.map (fun p => (ValueString env p.1, p.2.toValue)) := by
  simp only [Plain.wf, Bool.and_eq_true, decide_eq_true_eq] at hw
  have := plain_StringValueMap_fold env boxed es [] hw.2 hw.1 (by simp)
  simpa [StringValueMap, Plain.toValue, Value.MapRange] using this

theorem plain_marshalAny_mapping (m : MarshalerOptions) (env : Env) (fuel : Nat) (out : Values)
    (boxed : Bool) (es : List (Value × Plain)) (s : String)
    (hw : (Plain.mapping boxed es).wf env = true) :
    m.marshalAny env (fuel + 1) out (Plain.mapping boxed es).toValue s
      = wrapErr "marshal map"
          (forEach (fun o kv => m.marshalAny env fuel o kv.2
              (if s ≠ "" then s ++ "[" ++ kv.1 ++ "]" else kv.1))
            (es.map (fun p => (ValueString env p.1, p.2.toValue))) out) := by
  rw [MarshalerOptions.marshalAny]
  simp only [MarshalerOptions.marshalMap, plain_StringValueMap_mapping env boxed es hw]
  simp [Plain.toValue, Value.IsValid, Value.Kind, Value.Interface, Value.asMarshaler]

theorem marshalAny_plain_leaf (m : MarshalerOptions) (env : Env) (fuel : Nat) (out : Values)
    (v : Value) (s : String) (h : isLeaf v = true) :
    m.marshalAny env (fuel + 1) out v s
      = .ret (addPairs out (if s = "" then [] else [(s, leafText m env v)]), none) := by
  rw [marshalAny_leaf m env fuel out v s h]
  by_cases hs : s = "" <;> simp [emitLeaves, addPairs, hs]

theorem forEach_printed (m : MarshalerOptions) (env : Env) (fuel : Nat) (s : String)
    (vs : List Value) (out : Values) (hc : ∀ v ∈ vs, Value.asMarshaler (some v) = none) :
    forEach (fun o v => m.marshalAny env (fuel + 1) o v s) (vs.map Value.iface) out
      = .ret (addPairs out (printed env s vs), none) := by
  induction vs generalizing out with
  | nil => by_cases hs : s = "" <;> simp [forEach, printed, addPairs, hs]
  | cons v vs ih =>
    have h1 := marshalAny_basic m env fuel out (.iface v) s (isBasic_iface v (hc v (by simp)))
    have h2 := fun o => ih o (fun x hx => hc x (by simp [hx]))
    by_cases hs : s = ""
    · simp only [hs, if_true] at h1
      simp only [List.map_cons, forEach, hs, h1]
      rw [← hs, h2 out]
      simp [printed, hs]
    · simp only [hs, if_false] at h1
      simp only [List.map_cons, forEach, h1]
      rw [h2 _]
      simp [printed, hs, addPairs, renderBasic_iface]

theorem plain_elemsToValue_boxed (es : List Plain) :
    Plain.elemsToValue true es = (Plain.elemsToValue false es).map Value.iface := by
  induction es with
  | nil => rfl
  | cons t rest ih => simp [Plain.elemsToValue, slot, ih]

theorem plain_elems_not_custom (env : Env) (es : List Plain)
    (hw : Plain.wfElems env es = true) :
    ∀ v ∈ Plain.elemsToValue false es, Value.asMarshaler (some v) = none := by
  induction es with
  | nil => intro v hv; simp [Plain.elemsToValue] at hv
  | cons t rest ih =>
    simp only [Plain.wfElems, Bool.and_eq_true] at hw
    intro v hv
    simp only [Plain.elemsToValue, slot, List.mem_cons] at hv
    rcases hv with rfl | hv
    · exact (plain_toValue_facts env t hw.1).2.2
    · exact ih hw.2 v hv

theorem plain_depth_pos (t : Plain) : 0 < t.depth := by
  cases t <;> simp [Plain.depth]

theorem marshalSlice_of_loop (m : MarshalerOptions) (self : Values → Value → String → Outcome)
    (out : Values) (val : Value) (s : String) (inner : List (String × String))
    (hloop : ∀ o : Values,
      forEach (fun o v => self o v (elementScope m s)) (SliceValues val) o
        = .ret (addPairs o inner, none)) :
    m.marshalSlice self out val s
      = .ret (addPairs out (joinAt m (elementScope m s) inner), none) := by
  simp only [elementScope] at hloop
  by_cases hd : m.ArrayDelimiter = ""
  · simp only [MarshalerOptions.marshalSlice, hd, if_true, hloop, joinAt, elementScope]
  · have hg := get_addPairs inner [] (if m.ArrayBrackets then s ++ "[]" else s)
    simp only [MarshalerOptions.marshalSlice, hd, if_false, hloop, hg, joinAt, elementScope]
    by_cases ht : textsUnder inner (if m.ArrayBrackets then s ++ "[]" else s) = []
    · simp [ht, addPairs, Values.get]
    · simp [ht, addPairs, Values.get]

theorem plain_marshalAny_sequence (m : MarshalerOptions) (env : Env) (fuel : Nat) (out : Values)
    (fixed boxed : Bool) (es : List Plain) (s : String) :
    m.marshalAny env (fuel + 1) out (Plain.sequence fixed boxed es).toValue s
      = wrapErr "marshal slice"
          (m.marshalSlice (fun o v k => m.marshalAny env fuel o v k) out
            (Plain.sequence fixed boxed es).toValue s) ∧
    SliceValues (Plain.sequence fixed boxed es).toValue = Plain.elemsToValue boxed es := by
  have hk : (Plain.sequence fixed boxed es).toValue.Kind = .Array ∨
      (Plain.sequence fixed boxed es).toValue.Kind = .Slice := by
    cases fixed <;> simp [Plain.toValue, Value.Kind]
  have hc : Value.asMarshaler (Plain.sequence fixed boxed es).toValue.Interface = none := by
    cases fixed <;> rfl
  refine ⟨marshalAny_sequence m env fuel out _ s hk hc, ?_⟩
  cases fixed <;> rfl

theorem isLeaf_not_ptr (v : Value) (h : isLeaf v = true) : v.Kind ≠ .Ptr := by
  have hb : (∃ t, v = .time t) ∨ isBasic v = true := by
    cases v <;> first | exact Or.inl ⟨_, rfl⟩ | exact Or.inr h
  rcases hb with ⟨t, rfl⟩ | hb
  · simp [Value.Kind]
  · intro hk
    simp [isBasic, hk] at hb

theorem plain_forEach_boxed (m : MarshalerOptions) (env : Env) (fuel : Nat) (s : String)
    (es : List Plain) (out : Values) (hw : Plain.wfElems env es = true)
    (hf : Plain.depthElems es ≤ fuel) :
    forEach (fun o v => m.marshalAny env fuel o v s) (Plain.elemsToValue true es) out
      = .ret (addPairs out (printed env s (Plain.elemsToValue false es)), none) := by
  cases es with
  | nil => by_cases hs : s = "" <;> simp [Plain.elemsToValue, forEach, printed, addPairs, hs]
  | cons t rest =>
    have h1 : 0 < fuel := by
      have := plain_depth_pos t
      simp only [Plain.depthElems, Nat.max_le] at hf
      omega
    obtain ⟨n, rfl⟩ : ∃ n, fuel = n + 1 := ⟨fuel - 1, by omega⟩
    rw [plain_elemsToValue_boxed]
    exact forEach_printed m env n s _ out (plain_elems_not_custom env _ hw)

mutual
theorem engine_on_plain (m : MarshalerOptions) (env : Env) :
    ∀ (t : Plain) (fuel : Nat) (out : Values) (s : String), t.wf env = true → t.depth ≤ fuel →
      m.marshalAny env fuel out t.toValue s = .ret (addPairs out (t.leaves m env s), none) ∧
      m.marshalAny env fuel out (Indirect t.toValue) s
        = .ret (addPairs out (t.leaves m env s), none)
  | .leaf v, fuel, out, s, hw, hf => by
    cases fuel with
    | zero => simp [Plain.depth] at hf
    | succ n =>
      have hl : isLeaf v = true := by
        simp only [Plain.wf, Bool.and_eq_true] at hw
        exact hw.1
      simp only [Plain.toValue, Plain.leaves, Indirect_of_not_ptr v (isLeaf_not_ptr v hl)]
      exact ⟨marshalAny_plain_leaf m env n out v s hl, marshalAny_plain_leaf m env n out v s hl⟩
  | .mapping boxed es, fuel, out, s, hw, hf => by
    cases fuel with
    | zero => simp [Plain.depth] at hf
    | succ n =>
      have main : m.marshalAny env (n + 1) out (Plain.mapping boxed es).toValue s
          = .ret (addPairs out ((Plain.mapping boxed es).leaves m env s), none) := by
        rw [plain_marshalAny_mapping m env n out boxed es s hw]
        simp only [Plain.wf, Bool.and_eq_true] at hw
        simp only [Plain.depth, Nat.add_le_add_iff_right] at hf
        rw [engine_on_plain_entries m env es n out s hw.2 hf]
        simp [wrapErr, Plain.leaves]
      have hi : Indirect (Plain.mapping boxed es).toValue = (Plain.mapping boxed es).toValue :=
        Indirect_of_not_ptr _ (by simp [Plain.toValue, Value.Kind])
      rw [hi]
      exact ⟨main, main⟩
  | .sequence fixed boxed es, fuel, out, s, hw, hf => by
    cases fuel with
    | zero => simp [Plain.depth] at hf
    | succ n =>
      have main : m.marshalAny env (n + 1) out (Plain.sequence fixed boxed es).toValue s
          = .ret (addPairs out ((Plain.sequence fixed boxed es).leaves m env s), none) := by
        obtain ⟨h1, hsv⟩ := plain_marshalAny_sequence m env n out fixed boxed es s
        simp only [Plain.wf] at hw
        simp only [Plain.depth, Nat.add_le_add_iff_right] at hf
        rw [h1]
        have hloop : ∀ o : Values,
            forEach (fun o v => m.marshalAny env n o v (elementScope m s))
              (SliceValues (Plain.sequence fixed boxed es).toValue) o
              = .ret (addPairs o
                  (if boxed then printed env (elementScope m s) (Plain.elemsToValue false es)
                   else Plain.leavesElems m env (elementScope m s) es), none) := by
          intro o
          rw [hsv]
          cases boxed with
          | false => simpa using engine_on_plain_elems m env es n o (elementScope m s) hw hf
          | true => simpa using plain_forEach_boxed m env n (elementScope m s) es o hw hf
        rw [marshalSlice_of_loop m _ out _ s _ hloop]
        simp [wrapErr, Plain.leaves]
      have hi : Indirect (Plain.sequence fixed boxed es).toValue
          = (Plain.sequence fixed boxed es).toValue :=
        Indirect_of_not_ptr _ (by cases fixed <;> simp [Plain.toValue, Value.Kind])
      rw [hi]
      exact ⟨main, main⟩
  | .pointer t, fuel, out, s, hw, hf => by
    cases fuel with
    | zero => simp [Plain.depth] at hf
    | succ n =>
      simp only [Plain.wf] at hw
      simp only [Plain.depth, Nat.add_le_add_iff_right] at hf
      have hi : Indirect (Plain.pointer t).toValue = Indirect t.toValue := by
        simp [Plain.toValue, Indirect]
      have h1 := (engine_on_plain m env t n out s hw hf).2
      have h2 := (engine_on_plain m env t (n + 1) out s hw (Nat.le_succ_of_le hf)).2
      refine ⟨?_, ?_⟩
      · rw [marshalAny_ptr m env n out (Plain.pointer t).toValue s rfl rfl, hi, h1]
        simp [wrapErr, Plain.leaves]
      · rw [hi, h2]
        simp [Plain.leaves]
theorem engine_on_plain_entries (m : MarshalerOptions) (env : Env) :
    ∀ (es : List (Value × Plain)) (fuel : Nat) (out : Values) (s : String),
      Plain.wfEntries env es = true → Plain.depthEntries es ≤ fuel →
      forEach (fun o kv => m.marshalAny env fuel o kv.2
          (if s ≠ "" then s ++ "[" ++ kv.1 ++ "]" else kv.1))
        (es.map (fun p => (ValueString env p.1, p.2.toValue))) out
        = .ret (addPairs out (Plain.leavesEntries m env s es), none)
  | [], fuel, out, s, _, _ => by simp [forEach, Plain.leavesEntries, addPairs]
  | (k, t) :: rest, fuel, out, s, hw, hf => by
    simp only [Plain.wfEntries, Bool.and_eq_true] at hw
    simp only [Plain.depthEntries, Nat.max_le] at hf
    have h1 := (engine_on_plain m env t fuel out
      (if s ≠ "" then s ++ "[" ++ ValueString env k ++ "]" else ValueString env k) hw.1 hf.1).1
    have h2 := engine_on_plain_entries m env rest fuel
      (addPairs out (t.leaves m env
        (if s ≠ "" then s ++ "[" ++ ValueString env k ++ "]" else ValueString env k)))
      s hw.2 hf.2
    simp only [List.map_cons, forEach, h1, h2, Plain.leavesEntries, addPairs_append]
    by_cases hs : s = "" <;> simp [hs]
theorem engine_on_plain_elems (m : MarshalerOptions) (env : Env) :
    ∀ (es : List Plain) (fuel : Nat) (out : Values) (s : String),
      Plain.wfElems env es = true → Plain.depthElems es ≤ fuel →
      forEach (fun o v => m.marshalAny env fuel o v s) (Plain.elemsToValue false es) out
        = .ret (addPairs out (Plain.leavesElems m env s es), none)
  | [], fuel, out, s, _, _ => by
    simp [forEach, Plain.elemsToValue, Plain.leavesElems, addPairs]
  | t :: rest, fuel, out, s, hw, hf => by
    simp only [Plain.wfElems, Bool.and_eq_true] at hw
    simp only [Plain.depthElems, Nat.max_le] at hf
    have h1 := (engine_on_plain m env t fuel out s hw.1 hf.1).1
    have h2 := engine_on_plain_elems m env rest fuel
      (addPairs out (t.leaves m env s)) s hw.2 hf.2
    simp only [Plain.elemsToValue, slot, forEach, h1, h2, Plain.leavesElems, addPairs_append]
    simp [h1, h2]
end

mutual
theorem leaves_eq_reach (m : MarshalerOptions) (env : Env) (hd : m.ArrayDelimiter = "") :
    ∀ (t : Plain) (s : String), t.typed = true →
      t.leaves m env s
        = ((t.reach env m.ArrayBrackets s).filter (fun p => p.1 ≠ "")).map
            (fun p => (p.1, leafText m env p.2))
  | .leaf v, s, _ => by
    by_cases hs : s = "" <;> simp [Plain.leaves, Plain.reach, hs]
  | .mapping boxed es, s, ht => by
    simp only [Plain.typed] at ht
    simp only [Plain.leaves, Plain.reach]
    exact leavesEntries_eq_reach m env hd es s ht
  | .sequence fixed boxed es, s, ht => by
    simp only [Plain.typed, Bool.and_eq_true, Bool.not_eq_true'] at ht
    simp only [Plain.leaves, Plain.reach, joinAt, hd, if_true, ht.1, elementScope]
    exact leavesElems_eq_reach m env hd es _ ht.2
  | .pointer t, s, ht => by
    simp only [Plain.typed] at ht
    simp only [Plain.leaves, Plain.reach]
    exact leaves_eq_reach m env hd t s ht
theorem leavesEntries_eq_reach (m : MarshalerOptions) (env : Env) (hd : m.ArrayDelimiter = "") :
    ∀ (es : List (Value × Plain)) (s : String), Plain.typedEntries es = true →
      Plain.leavesEntries m env s es
        = ((Plain.reachEntries env m.ArrayBrackets s es).filter (fun p => p.1 ≠ "")).map
            (fun p => (p.1, leafText m env p.2))
  | [], s, _ => by simp [Plain.leavesEntries, Plain.reachEntries]
  | (k, t) :: rest, s, ht => by
    simp only [Plain.typedEntries, Bool.and_eq_true] at ht
    simp only [Plain.leavesEntries, Plain.reachEntries, List.filter_append, List.map_append,
      leaves_eq_reach m env hd t _ ht.1, leavesEntries_eq_reach m env hd rest s ht.2]
theorem leavesElems_eq_reach (m : MarshalerOptions) (env : Env) (hd : m.ArrayDelimiter = "") :
    ∀ (es : List Plain) (s : String), Plain.typedElems es = true →
      Plain.leavesElems m env s es
        = ((Plain.reachElems env m.ArrayBrackets s es).filter (fun p => p.1 ≠ "")).map
            (fun p => (p.1, leafText m env p.2))
  | [], s, _ => by simp [Plain.leavesElems, Plain.reachElems]
  | t :: rest, s, ht => by
    simp only [Plain.typedElems, Bool.and_eq_true] at ht
    simp only [Plain.leavesElems, Plain.reachElems, List.filter_append, List.map_append,
      leaves_eq_reach m env hd t _ ht.1, leavesElems_eq_reach m env hd rest s ht.2]
end

theorem marshalAny_nilPtr (m : MarshalerOptions) (env : Env) :
    ∀ (fuel : Nat) (out : Values) (s : String),
      m.marshalAny env fuel out .nilPtr s = .outOfFuel := by
  intro fuel
  induction fuel with
  | zero => intro out s; rfl
  | succ n ih =>
    intro out s
    rw [MarshalerOptions.marshalAny]
    simp [Value.IsValid, Value.Kind, Value.Interface, Value.asMarshaler,
      MarshalerOptions.marshalPtr, Indirect, ih, wrapErr]

/-- C5, as stated, fails. (1) The mapping `{"": 1}` at the empty scope: the
leaf has the composed scope "" and the output has no key at all. (2) The mapping
`{"a": {"b": 1}, "a[b]": 2}`: two leaves compose to `a[b]` and that one key
holds both renderings. (3) With `ArrayDelimiter = "|"`, the mapping
`{"s": [{"a": 1}]}`: the leaf has the composed scope `s[a]` and the output has
no key at all. (4) With `ArrayDelimiter = "|"`, the mapping
`{"s": ["100", "200"]}`: the key `s` holds the one value `100|200`, not the
renderings of the two leaves. (5) The mapping `{"s": []any{{"a": 1}}}`: the
leaf has the composed scope `s[a]`, and the output has the one key `s`, which
holds the map as `fmt.Sprint` prints it. (6) The mapping `{"p": (*int)(nil)}`:
the engine never returns. (7) A custom-encodable value under the key `a` whose
`EncodeValues` adds under `x`: the output has the one key `x`. (8) A record
under the key `r`: the output has the keys that the record encoder gives,
`r[int]` and `r[slice]`. (9) The `map[any]any{1: 10, "1": 20}`, visited in this
order: both keys are rendered `1`, two leaves compose to that path, and the
output holds one value under it. -/
theorem descent_keys_counterexample :
    (MarshalerOptions.marshalAny {} sampleEnv 2 []
        (Plain.mapping true [(.str "", .leaf (.int 1))]).toValue "" = .ret ([], none) ∧
      "" ∈ ((Plain.mapping true [(.str "", .leaf (.int 1))]).reach sampleEnv false "").map Prod.fst) ∧
    (MarshalerOptions.marshalAny {} sampleEnv 3 []
        (Plain.mapping true
          [(.str "a", .mapping true [(.str "b", .leaf (.int 1))]), (.str "a[b]", .leaf (.int 2))]).toValue ""
      = .ret ([("a[b]", ["1", "2"])], none)) ∧
    (MarshalerOptions.marshalAny { ArrayDelimiter := "|" } sampleEnv 4 []
        (Plain.mapping true
          [(.str "s", .sequence false false [.mapping true [(.str "a", .leaf (.int 1))]])]).toValue ""
      = .ret ([], none) ∧
      "s[a]" ∈ ((Plain.mapping true
          [(.str "s", .sequence false false [.mapping true [(.str "a", .leaf (.int 1))]])]).reach
            sampleEnv false "").map Prod.fst) ∧
    (MarshalerOptions.marshalAny { ArrayDelimiter := "|" } sampleEnv 3 []
        (Plain.mapping true
          [(.str "s", .sequence false false [.leaf (.str "100"), .leaf (.str "200")])]).toValue ""
      = .ret ([("s", ["100|200"])], none)) ∧
    (MarshalerOptions.marshalAny {} sampleEnv 4 []
        (Plain.mapping true
          [(.str "s", .sequence false true [.mapping true [(.str "a", .leaf (.int 1))]])]).toValue ""
      = .ret ([("s", [sampleEnv.Sprint (.map [(.str "a", .iface (.int 1))])])], none) ∧
      ((Plain.mapping true
          [(.str "s", .sequence false true [.mapping true [(.str "a", .leaf (.int 1))]])]).reach
            sampleEnv false "").map Prod.fst = ["s[a]"]) ∧
    (∀ fuel : Nat,
      MarshalerOptions.marshalAny {} sampleEnv fuel [] (.map [(.str "p", .iface .nilPtr)]) ""
        = .outOfFuel) ∧
    (MarshalerOptions.marshalAny {} sampleEnv 2 []
        (.map [(.str "a", .iface (.defined
          { encodeValues := some (fun _ o => (o.Add "x" "1", none)) } (.int 1)))]) ""
      = .ret ([("x", ["1"])], none)) ∧
    (MarshalerOptions.marshalAny {} sampleEnv 2 []
        (.map [(.str "r", .iface (.struct [("Int", .int 100)]))]) ""
      = .ret ([("r[int]", ["100"]), ("r[slice]", ["1", "2"])], none)) ∧
    (MarshalerOptions.marshalAny {} sampleEnv 2 []
        (Plain.mapping true
          [(.iface (.int 1), .leaf (.int 10)), (.iface (.str "1"), .leaf (.int 20))]).toValue ""
      = .ret ([("1", ["20"])], none) ∧
      ((Plain.mapping true
          [(.iface (.int 1), .leaf (.int 10)), (.iface (.str "1"), .leaf (.int 20))]).reach
            sampleEnv false "").map Prod.fst = ["1", "1"]) := by
  refine ⟨⟨by decide, by decide⟩, by decide, ⟨by decide, by decide⟩, by decide,
    ⟨by decide, by decide⟩, ?_, by decide, by decide, ⟨by decide, by decide⟩⟩
  intro fuel
  cases fuel with
  | zero => rfl
  | succ n =>
    rw [marshalAny_map_single {} sampleEnv n [] "p" (.iface .nilPtr) .nilPtr "" (by decide) rfl,
      marshalAny_nilPtr]
    rfl

/-- C5, amended: for data built from mappings whose keys have distinct
renderings, sequences, non-nil pointers and primitive or timestamp leaves, at
any scope `s` and under every configuration, the engine started on the empty
collection returns (given fuel for the nesting depth) a collection whose keys
are exactly the composed scopes of the leaves (`Plain.leaves`), each key holding
the renderings of the leaves composed to it, in visiting order. The leaves are
those that depth-first descent reaches with a non-empty composed scope, where a
pointer is followed at the same scope, an element of a sequence of interface
values is a leaf whatever it holds (rendered as `fmt.Sprint` prints it), and in
delimiter mode a sequence is one leaf at its element scope, rendered as the join
of what its elements compose to exactly that scope, and no leaf when there is
none. With `ArrayDelimiter` empty and no sequence of interface values, the keys
are exactly the non-empty composed scope paths of plain depth-first descent
(`Plain.reach`) and each key holds the renderings of all the leaves composed to
it. For a non-empty mapping, given directly or behind pointers, at the empty
scope that collection is what `Marshal` returns. -/
theorem descent_keys (m : MarshalerOptions) (env : Env) (t : Plain) (s : String)
    (hw : t.wf env = true) :
    ∃ out1 : Values,
      (∀ fuel, t.depth ≤ fuel → m.marshalAny env fuel [] t.toValue s = .ret (out1, none)) ∧
      (∀ k, k ∈ out1.keys ↔ k ∈ (t.leaves m env s).map Prod.fst) ∧
      (∀ k, k ∈ out1.keys → out1.get k = some (textsUnder (t.leaves m env s) k)) ∧
      (m.ArrayDelimiter = "" → t.typed = true →
        (∀ k, k ∈ out1.keys ↔ (k ≠ "" ∧ k ∈ (t.reach env m.ArrayBrackets s).map Prod.fst)) ∧
        (∀ k, k ∈ out1.keys → out1.get k
          = some (((t.reach env m.ArrayBrackets s).filter (fun p => p.1 = k)).map
              (fun p => leafText m env p.2)))) ∧
      ((Indirect t.toValue).Kind = .Map → IsZero (Indirect t.toValue) = false → s = "" →
        ∀ fuel, t.depth ≤ fuel → m.Marshal env fuel (some t.toValue) = .ret (some out1, none)) := by
  have hrun := fun fuel hf => engine_on_plain m env t fuel [] s hw hf
  have hget : ∀ k, (addPairs [] (t.leaves m env s)).get k
      = if textsUnder (t.leaves m env s) k = [] then none
        else some (textsUnder (t.leaves m env s) k) := by
    intro k
    rw [get_addPairs]
    simp [Values.get]
  have hkeys : ∀ k, k ∈ (addPairs [] (t.leaves m env s)).keys ↔
      k ∈ (t.leaves m env s).map Prod.fst := by
    intro k
    rw [mem_keys_iff_get, hget k, ← textsUnder_ne_nil_iff]
    by_cases ht : textsUnder (t.leaves m env s) k = [] <;> simp [ht]
  have hval : ∀ k, k ∈ (addPairs [] (t.leaves m env s)).keys →
      (addPairs [] (t.leaves m env s)).get k = some (textsUnder (t.leaves m env s) k) := by
    intro k hk
    have h := (textsUnder_ne_nil_iff _ _).mpr ((hkeys k).mp hk)
    rw [hget k]
    simp [h]
  refine ⟨_, fun fuel hf => (hrun fuel hf).1, hkeys, hval, ?_, ?_⟩
  · intro hd htyped
    have hl := leaves_eq_reach m env hd t s htyped
    constructor
    · intro k
      rw [hkeys k, hl]
      constructor
      · intro h
        obtain ⟨q, hq, rfl⟩ := List.mem_map.mp h
        obtain ⟨p, hp, rfl⟩ := List.mem_map.mp hq
        have hp2 := List.mem_filter.mp hp
        exact ⟨by simpa using hp2.2, List.mem_map.mpr ⟨p, hp2.1, rfl⟩⟩
      · rintro ⟨hne, h⟩
        obtain ⟨p, hp, rfl⟩ := List.mem_map.mp h
        exact List.mem_map.mpr ⟨(p.1, leafText m env p.2),
          List.mem_map.mpr ⟨p, List.mem_filter.mpr ⟨hp, by simpa using hne⟩, rfl⟩, rfl⟩
    · intro k hk
      rw [hval k hk, hl]
      have hk0 : k ≠ "" := by
        have h := (hkeys k).mp hk
        rw [hl] at h
        obtain ⟨q, hq, rfl⟩ := List.mem_map.mp h
        obtain ⟨p, hp, rfl⟩ := List.mem_map.mp hq
        simpa using (List.mem_filter.mp hp).2
      congr 1
      simp only [textsUnder, List.filter_map, List.map_map, List.filter_filter]
      congr 1
      apply List.filter_congr
      intro p _
      by_cases hpk : p.1 = k
      · simp [hpk, hk0]
      · simp [hpk]
  · intro hk hz hs fuel hf
    subst hs
    simp only [MarshalerOptions.Marshal, hz, hk, (hrun fuel hf).2]
    rfl

theorem descent_keys_witness :
    (∃ out1 : Values,
      MarshalerOptions.Marshal {} sampleEnv 4 (some examplePlain.toValue)
        = .ret (some out1, none) ∧
      (∀ k, k ∈ out1.keys ↔ k ∈ ["int", "map[slice]", "map[slice]", "map[int]"]) ∧
      out1.get "int" = some ["1"] ∧ out1.get "map[int]" = some ["1"] ∧
      out1.get "map[slice]" = some ["100", "200"]) ∧
    (∃ out2 : Values,
      MarshalerOptions.marshalAny { ArrayDelimiter := ",", IntBool := true } sampleEnv 4 []
          (Plain.mapping true
            [(.str "p", .pointer (.pointer (.leaf (.int 7)))),
             (.str "s", .sequence false true [.leaf (.bool true), .leaf (.int 2)])]).toValue "q"
        = .ret (out2, none) ∧
      (∀ k, k ∈ out2.keys ↔ k ∈ ["q[p]", "q[s]"]) ∧
      out2.get "q[p]" = some ["7"] ∧ out2.get "q[s]" = some ["true,2"]) := by
  constructor
  · obtain ⟨out1, _, hkeys, hget, _, hM⟩ := descent_keys {} sampleEnv examplePlain "" (by decide)
    refine ⟨out1, hM rfl rfl rfl 4 (by decide), hkeys, ?_, ?_, ?_⟩
    · exact (hget "int" ((hkeys "int").mpr (by decide))).trans (by decide)
    · exact (hget "map[int]" ((hkeys "map[int]").mpr (by decide))).trans (by decide)
    · exact (hget "map[slice]" ((hkeys "map[slice]").mpr (by decide))).trans (by decide)
  · obtain ⟨out2, hrun, hkeys, hget, _, _⟩ :=
      descent_keys { ArrayDelimiter := ",", IntBool := true } sampleEnv
        (Plain.mapping true
          [(.str "p", .pointer (.pointer (.leaf (.int 7)))),
           (.str "s", .sequence false true [.leaf (.bool true), .leaf (.int 2)])]) "q" (by decide)
    refine ⟨out2, hrun 4 (by decide), hkeys, ?_, ?_⟩
    · exact (hget "q[p]" ((hkeys "q[p]").mpr (by decide))).trans (by decide)
    · exact (hget "q[s]" ((hkeys "q[s]").mpr (by decide))).trans (by decide)

end UrlValues
